import Mathlib

/-!
Verification of the `files` search engine (`lostinblue/files/search.go`).

A shallow embedding of the line indexer, the snippet builder, the per-file
search, the directory walk and the result collector of `search.go`, followed by
the theorems that settle the properties stated about them.

Conventions of the embedding.

* A Go `string` is a sequence of bytes: `GoString := List Nat`; the byte `'\n'`
  is `10`.
* A Go `int` is modelled by `Int` (positions and lengths stay far below `2^63`,
  so no operation of the program wraps around).
* A computation that can stop abnormally (a run-time panic on an index or a
  slice out of range, `log.Fatal`) returns `Option`/`Except`.
* The standard library is taken through its documented behaviour:
  `bufio.Reader.ReadString`, `sort.Search`, `strings.TrimRight`,
  `strings.TrimPrefix` are written out; `regexp`, `path.Join`,
  `ioutil.ReadFile` and `ioutil.ReadDir` are parameters.
* Goroutines and channels are not modelled; see the section on `SearchInDir`.
-/

namespace Files

/-! ## Strings -/

/-- A Go string: its bytes. -/
abbrev GoString := List Nat

/-- The line terminator `'\n'`. -/
abbrev newline : Nat := 10

/-- The bytes of an ASCII literal, to write concrete inputs legibly. -/
def bytes (s : String) : GoString := s.toList.map Char.toNat

/-- Go `len(s)` as an `int`. -/
def len {α : Type} (s : List α) : Int := (s.length : Int)

/-- Go slice expression `s[a:b]`; it panics (`none`) unless `0 ≤ a ≤ b ≤ len(s)`. -/
def slice (s : GoString) (a b : Int) : Option GoString :=
  if 0 ≤ a ∧ a ≤ b ∧ b ≤ len s then
    some ((s.drop a.toNat).take (b.toNat - a.toNat))
  else none

/-- Go index expression `l[i]` on a slice of ints; it panics (`none`) unless
`0 ≤ i < len(l)`. -/
def index (l : List Int) (i : Int) : Option Int :=
  if 0 ≤ i then l.get? i.toNat else none

/-- The call `strings.TrimRight(s, "\n")`: every trailing `'\n'` byte is removed. -/
def TrimRight (s : GoString) : GoString :=
  s.rdropWhile (fun b => b == newline)

/-- The call `strings.TrimPrefix(s, p)`: `s` without the leading `p` when `s` starts with
`p`, and `s` itself otherwise. -/
def TrimPrefix (s p : GoString) : GoString :=
  if p.isPrefixOf s then s.drop p.length else s

/-- The declaration `minInt` of `search.go`. -/
def minInt (a b : Int) : Int := if a < b then a else b

/-- The declaration `maxInt` of `search.go`. -/
def maxInt (a b : Int) : Int := if a > b then a else b

/-! ## LineIndexer: `ParseLineStarts` and `GetSourceLocation` -/

/-- The call `bufio.Reader.ReadString('\n')` over a `strings.Reader` holding the given
unread bytes: the bytes up to and including the first `'\n'`, the bytes left
unread, and whether the read ended with `io.EOF` (no `'\n'` was found; the bytes
read so far are still returned). A `strings.Reader` raises no other error. -/
def ReadString : GoString → GoString × GoString × Bool
  | [] => ([], [], true)
  | b :: rest =>
    if b = newline then ([b], rest, false)
    else
      let r := ReadString rest
      (b :: r.1, r.2.1, r.2.2)

/-- The declaration `FileLineInfo` of `search.go`: the byte offsets of the line
starts. -/
abbrev FileLineInfo := List Int

/-- The `for` loop of `ParseLineStarts`, one iteration per unit of fuel: append
`charPos`, read one line, stop on `io.EOF`, otherwise advance `charPos` by the
length of the line read. `none` when the fuel runs out. (The counter `line` of
the source is written but never read and is left out.) -/
def parseLoop : Nat → GoString → Int → FileLineInfo → Option FileLineInfo
  | 0, _, _, _ => none
  | fuel + 1, reader, charPos, lineStartCharIndicies =>
    let lineStartCharIndicies := lineStartCharIndicies ++ [charPos]
    let r := ReadString reader
    if r.2.2 then some lineStartCharIndicies
    else parseLoop fuel r.2.1 (charPos + len r.1) lineStartCharIndicies

/-- The call `ParseLineStarts(contents)`. Every iteration but the last consumes at least
one byte, so `len(contents) + 1` iterations are enough. -/
def ParseLineStarts (contents : GoString) : Option FileLineInfo :=
  parseLoop (contents.length + 1) contents 0 []

/-- The loop of `sort.Search`: `for i < j { h := (i+j)/2; if !f(h) { i = h+1 }
else { j = h } }; return i`, one iteration per unit of fuel. -/
def sortSearchLoop : Nat → Nat → Nat → (Nat → Bool) → Option Nat
  | 0, i, j, _ => if i < j then none else some i
  | fuel + 1, i, j, f =>
    if i < j then
      let h := (i + j) / 2
      if !f h then sortSearchLoop fuel (h + 1) j f
      else sortSearchLoop fuel i h f
    else some i

/-- The call `sort.Search(n, f)`: binary search on `[0, n)`. The interval shrinks at every
iteration, so `n` iterations are enough. -/
def sortSearch (n : Nat) (f : Nat → Bool) : Option Nat :=
  sortSearchLoop n 0 n f

/-- The declaration `SourceLocation` of `search.go`. -/
structure SourceLocation where
  Line : Int
  Col : Int
deriving DecidableEq, Repr

/-- The call `(*FileLineInfo).GetSourceLocation(charPos)`. The closure handed to
`sort.Search` reads `fileLineInfo[i]` only for `0 ≤ i < len`; the read of
`fileLineInfo[lineStartIndex]` panics when `lineStartIndex` is `-1`. -/
def GetSourceLocation (fileLineInfo : FileLineInfo) (charPos : Int) :
    Option SourceLocation := do
  let nextLineIndex ← sortSearch fileLineInfo.length
    (fun i => decide (fileLineInfo.getD i 0 > charPos))
  let lineStartIndex : Int := (nextLineIndex : Int) - 1
  let lineStart ← index fileLineInfo lineStartIndex
  pure { Line := lineStartIndex, Col := charPos - lineStart }

/-! ## ContentCache, MatchExtractor, SnippetBuilder: `SearchInFile` -/

/-- The declaration `MAX_RESULTS_PER_FILE` of `search.go`. -/
abbrev MAX_RESULTS_PER_FILE : Int := 10

/-- The declaration `SNIPPET_LINES_ABOVE` of `search.go`. -/
abbrev SNIPPET_LINES_ABOVE : Int := 2

/-- The declaration `SNIPPET_LINES_BELOW` of `search.go`. -/
abbrev SNIPPET_LINES_BELOW : Int := 2

/-- The ways a call can end without a normal result: a Go `error` value is
returned, `log.Fatal` ends the process, a run-time panic is raised, or a loop of
the model runs out of fuel. -/
inductive Failure where
  | error
  | fatal
  | panic
  | outOfFuel
deriving DecidableEq, Repr

/-- The declaration `FileData` of `search.go`. -/
structure FileData where
  FilePath : GoString
  isCached : Bool
  cachedContents : GoString
deriving DecidableEq, Repr

/-- The call `(*FileData).GetContents(cacheResult, haltOnCacheMiss)`, with the file system
read `ioutil.ReadFile` as the parameter `readFile` (`none` is a read error). The
result is the contents together with the descriptor after the call. -/
def GetContents (readFile : GoString → Option GoString) (fileData : FileData)
    (cacheResult haltOnCacheMiss : Bool) : Except Failure (GoString × FileData) :=
  if fileData.isCached then .ok (fileData.cachedContents, fileData)
  else if haltOnCacheMiss then .error .fatal
  else
    match readFile fileData.FilePath with
    | none => .error .error
    | some stringContents =>
      if cacheResult then
        .ok (stringContents,
          { fileData with cachedContents := stringContents, isCached := true })
      else .ok (stringContents, fileData)

/-- A compiled `*regexp.Regexp`, taken through what the program asks of it: the
successive non-overlapping matches of the expression in a string, in scan order,
each a range `(start, end)` of byte offsets of that string. -/
structure Regexp where
  allMatches : GoString → List (Int × Int)
  inRange : ∀ (s : GoString), ∀ m ∈ allMatches s, 0 ≤ m.1 ∧ m.1 ≤ m.2 ∧ m.2 ≤ len s

/-- The call `(*Regexp).FindAllStringIndex(s, n)`: at most `n` of the successive matches
when `n ≥ 0`, all of them when `n < 0`; `nil` when there is none. -/
def FindAllStringIndex (re : Regexp) (s : GoString) (n : Int) :
    Option (List (Int × Int)) :=
  let found := if n < 0 then re.allMatches s else (re.allMatches s).take n.toNat
  if found.isEmpty then none else some found

/-- The declaration `ResultSnippet` of `search.go`. -/
structure ResultSnippet where
  Start : Int
  End : Int
  Text : GoString
deriving DecidableEq, Repr

/-- The declaration `SearchFileResult` of `search.go`. -/
structure SearchFileResult where
  Start : SourceLocation
  End : SourceLocation
  Snippet : ResultSnippet
deriving DecidableEq, Repr

/-- The declaration `SearchResultsForFile` of `search.go`. -/
structure SearchResultsForFile where
  FilePath : GoString
  Results : List SearchFileResult
deriving DecidableEq, Repr

/-- The declaration `snippetStartLine` in `SearchInFile`. -/
def snippetStartLine (startLocation : SourceLocation) : Int :=
  maxInt (startLocation.Line - SNIPPET_LINES_ABOVE) 0

/-- The declaration `snippetEndLine` in `SearchInFile`. -/
def snippetEndLine (endLocation : SourceLocation) (lineCount : Int) : Int :=
  minInt (endLocation.Line + SNIPPET_LINES_BELOW + 1) (lineCount - 1)

/-- The body of the `for` loop of `SearchInFile` for one match range; `none` is
a run-time panic (an index or a slice out of range). -/
def searchMatch (contents : GoString) (fileLineInfo : FileLineInfo)
    (singleMatchIndicies : Int × Int) : Option SearchFileResult := do
  let startLocation ← GetSourceLocation fileLineInfo singleMatchIndicies.1
  let endLocation ← GetSourceLocation fileLineInfo singleMatchIndicies.2
  let lineCount := len fileLineInfo
  let snippetStartCharPos ← index fileLineInfo (snippetStartLine startLocation)
  let snippetEndCharPos ← index fileLineInfo (snippetEndLine endLocation lineCount)
  let window ← slice contents snippetStartCharPos snippetEndCharPos
  let snippetText := TrimRight window
  pure
    { Start := startLocation
      End := endLocation
      Snippet :=
        { Start := singleMatchIndicies.1 - snippetStartCharPos
          End := singleMatchIndicies.2 - snippetStartCharPos
          Text := snippetText } }

/-- The `for ... range allMatches` loop of `SearchInFile`: each result is appended
to `fileSearchResult`. -/
def searchMatches (contents : GoString) (fileLineInfo : FileLineInfo) :
    List (Int × Int) → List SearchFileResult → Option (List SearchFileResult)
  | [], fileSearchResult => some fileSearchResult
  | singleMatchIndicies :: rest, fileSearchResult => do
    let r ← searchMatch contents fileLineInfo singleMatchIndicies
    searchMatches contents fileLineInfo rest (fileSearchResult ++ [r])

/-- The call `SearchInFile(fileData, queryRegexp)`; `.ok none` is the return
`nil, nil`. -/
def SearchInFile (readFile : GoString → Option GoString) (fileData : FileData)
    (queryRegexp : Regexp) : Except Failure (Option SearchResultsForFile) :=
  match GetContents readFile fileData false true with
  | .error e => .error e
  | .ok (contents, _) =>
    match FindAllStringIndex queryRegexp contents MAX_RESULTS_PER_FILE with
    | none => .ok none
    | some allMatches =>
      match ParseLineStarts contents with
      | none => .error .outOfFuel
      | some fileLineInfo =>
        match searchMatches contents fileLineInfo allMatches [] with
        | none => .error .panic
        | some fileSearchResult =>
          .ok (some { FilePath := fileData.FilePath, Results := fileSearchResult })

/-! ## WorkerPool and SearchCoordinator: `SearchWorker`, `SearchInDir`

The goroutines and channels are not modelled. What is kept of them is the
sequential code they run: what a worker does with one file, and what the
collector does with one received result. Which results reach the collector, and
in which order, is a parameter (`arrival`, positions in the file set): that the
publisher, the worker loops and the collector loops deliver the result of every
file exactly once is not derived here. The arguments `workerCount` and
`buffering` only size the pool and the channels, and `options` is never read by
`SearchInDir`; they are left out, so the model describes a call that returns
(with `workerCount = 0` the Go call blocks, and a negative channel size panics
in `make`). -/

/-- The declaration `SearchDirResults` of `search.go`, a Go `map`, as an
association list with one entry per key. -/
abbrev SearchDirResults := List (GoString × List SearchFileResult)

/-- Go map assignment `m[k] = v`. -/
def mapSet (m : SearchDirResults) (k : GoString) (v : List SearchFileResult) :
    SearchDirResults :=
  (k, v) :: m.filter (fun e => e.1 != k)

/-- Go map read `m[k]` (`none` when the key is absent). -/
def mapGet (m : SearchDirResults) (k : GoString) : Option (List SearchFileResult) :=
  m.lookup k

/-- What `SearchWorker` does with one file taken from `filesToSearch`: run
`SearchInFile`, `log.Fatal` on a returned error, and publish the result on
`fileSearchResults` when it is not `nil` (`.ok none`: nothing is published). -/
def SearchWorker (readFile : GoString → Option GoString) (queryRegexp : Regexp)
    (fileToSearch : FileData) : Except Failure (Option SearchResultsForFile) :=
  match SearchInFile readFile fileToSearch queryRegexp with
  | .error .error => .error .fatal
  | .error e => .error e
  | .ok fileSearchResult => .ok fileSearchResult

/-- The results published on `fileSearchResults`, in the order `arrival` (a list
of positions in `fileDataSet`) in which they reach the collector. -/
def publishedResults (readFile : GoString → Option GoString) (queryRegexp : Regexp)
    (fileDataSet : List FileData) :
    List Nat → Except Failure (List SearchResultsForFile)
  | [] => .ok []
  | i :: arrival =>
    match fileDataSet.get? i with
    | none => publishedResults readFile queryRegexp fileDataSet arrival
    | some fileToSearch =>
      match SearchWorker readFile queryRegexp fileToSearch with
      | .error e => .error e
      | .ok none => publishedResults readFile queryRegexp fileDataSet arrival
      | .ok (some r) =>
        match publishedResults readFile queryRegexp fileDataSet arrival with
        | .error e => .error e
        | .ok rs => .ok (r :: rs)

/-- The collector loops of `SearchInDir`: each received result is stored under
its path with `pathPrefix` trimmed. -/
def collectResults (pathPrefix : GoString) :
    List SearchResultsForFile → SearchDirResults → SearchDirResults
  | [], searchDirResults => searchDirResults
  | fileSearchResult :: rest, searchDirResults =>
    collectResults pathPrefix rest
      (mapSet searchDirResults (TrimPrefix fileSearchResult.FilePath pathPrefix)
        fileSearchResult.Results)

/-- The call `SearchInDir(fileDataSet, pathPrefix, query, ...)` with
`regexp.Compile` as the parameter `compile` (`none` is a compile error, returned
before any worker starts) and the results received by the collector as the
parameter `arrival`: the files at these positions are searched by a worker, and
the published results are collected in this order. -/
def SearchInDir (compile : GoString → Option Regexp)
    (readFile : GoString → Option GoString) (arrival : List Nat)
    (fileDataSet : List FileData) (pathPrefix query : GoString) :
    Except Failure SearchDirResults :=
  match compile query with
  | none => .error .error
  | some queryRegexp =>
    match publishedResults readFile queryRegexp fileDataSet arrival with
    | .error e => .error e
    | .ok received => .ok (collectResults pathPrefix received [])

/-! ## FileCatalog: `GetFilepathsInDir` -/

/-- An entry of a directory as `ioutil.ReadDir` reports it (symbolic links are
not resolved): a symbolic link, a directory with what reading it yields, or
anything else, which the program treats as "just a file". `readable = false` is
a directory on which `ioutil.ReadDir` fails. -/
inductive Entry where
  | file (name : GoString)
  | symlink (name : GoString)
  | dir (name : GoString) (readable : Bool) (entries : List Entry)

/-- The body of `GetFilepathsInDir(dirpath, filePathIncludeRegexp, filePathExcludeRegexp)` around its loop:
`nil` when `dirpath` matches the exclude pattern, the error of `ioutil.ReadDir`,
and otherwise the per-entry lists `filesInSubdirs` merged into one list. A `nil`
exclude pattern is dereferenced (panic). -/
def dirBody (filePathExcludeRegexp : Option (GoString → Bool)) (dirpath : GoString)
    (readable : Bool) (filesInSubdirs : Except Failure (List (List FileData))) :
    Except Failure (List FileData) :=
  match filePathExcludeRegexp with
  | none => .error .panic
  | some excludeMatch =>
    if excludeMatch dirpath then .ok []
    else if !readable then .error .error
    else
      match filesInSubdirs with
      | .error e => .error e
      | .ok lists => .ok lists.flatten

mutual
/-- One iteration of the loop over the entries of `dirpath`: the value left in
`filesInSubdirs[i]`. `join` is `path.Join`. -/
def scanEntry (join : GoString → GoString → GoString)
    (filePathIncludeRegexp filePathExcludeRegexp : Option (GoString → Bool)) (dirpath : GoString) :
    Entry → Except Failure (List FileData)
  | .symlink _ => .ok []
  | .dir name readable entries =>
    dirBody filePathExcludeRegexp (join dirpath name) readable
      (scanEntries join filePathIncludeRegexp filePathExcludeRegexp (join dirpath name) entries)
  | .file name =>
    match filePathIncludeRegexp with
    | some includeMatch =>
      if !includeMatch (join dirpath name) then .ok []
      else .ok [{ FilePath := join dirpath name, isCached := false, cachedContents := [] }]
    | none =>
      .ok [{ FilePath := join dirpath name, isCached := false, cachedContents := [] }]
/-- The loop over the entries of `dirpath`; the first error ends it. -/
def scanEntries (join : GoString → GoString → GoString)
    (filePathIncludeRegexp filePathExcludeRegexp : Option (GoString → Bool)) (dirpath : GoString) :
    List Entry → Except Failure (List (List FileData))
  | [] => .ok []
  | fileInfo :: rest =>
    match scanEntry join filePathIncludeRegexp filePathExcludeRegexp dirpath fileInfo with
    | .error e => .error e
    | .ok files =>
      match scanEntries join filePathIncludeRegexp filePathExcludeRegexp dirpath rest with
      | .error e => .error e
      | .ok lists => .ok (files :: lists)
end

/-- The call `GetFilepathsInDir(dirpath, filePathIncludeRegexp,
filePathExcludeRegexp)` on the directory `dirpath` whose reading yields `entries`
(or fails when `readable = false`). -/
def GetFilepathsInDir (join : GoString → GoString → GoString)
    (filePathIncludeRegexp filePathExcludeRegexp : Option (GoString → Bool)) (dirpath : GoString)
    (readable : Bool) (entries : List Entry) : Except Failure (List FileData) :=
  dirBody filePathExcludeRegexp dirpath readable (scanEntries join filePathIncludeRegexp filePathExcludeRegexp dirpath entries)


/-! ## Reference definitions, written from the specification -/

/-- The positions of the `'\n'` bytes of `content`, in ascending order. -/
def newlinePositions (content : GoString) : List Nat :=
  (List.range content.length).filter (fun p => content.get? p == some newline)

/-- The line index as the specification describes it: offset `0` for line `0`,
then the offset immediately following each line terminator. -/
def specLineStarts (content : GoString) : List Int :=
  0 :: (newlinePositions content).map (fun (p : Nat) => (p : Int) + 1)

/-- The end of line `k`, its terminator included: the start of line `k + 1`, or
the end of the content for the last line. -/
def specLineEnd (content : GoString) (lineStarts : FileLineInfo) (k : Int) : Option Int :=
  if k + 1 < len lineStarts then index lineStarts (k + 1) else some (len content)

/-- The snippet window as the specification describes it: the substring of the
content from the start of line `max (startLine - 2) 0` to the end of line
`min (endLine + 2) (lineCount - 1)`. -/
def specSnippetWindow (content : GoString) (lineStarts : FileLineInfo)
    (startLine endLine : Int) : Option GoString := do
  let windowStart ← index lineStarts (maxInt (startLine - 2) 0)
  let windowEnd ← specLineEnd content lineStarts (minInt (endLine + 2) (len lineStarts - 1))
  slice content windowStart windowEnd

/-- Removal of a single trailing `'\n'`, if present. -/
def trimOneNewline (s : GoString) : GoString :=
  if s.getLast? = some newline then s.dropLast else s

/-- The snippet text as the specification describes it: the window with a single
trailing line terminator removed. -/
def specSnippetText (content : GoString) (lineStarts : FileLineInfo)
    (startLine endLine : Int) : Option GoString :=
  (specSnippetWindow content lineStarts startLine endLine).map trimOneNewline

/-- Whether the query has at least one match in the cached contents of a file. -/
def hasMatch (queryRegexp : Regexp) (fileData : FileData) : Bool :=
  !(queryRegexp.allMatches fileData.cachedContents).isEmpty

/-! ### The catalog -/

mutual
/-- The plain files below an entry of the directory `dirpath`, each with its full
path and with the paths of the directories on the way from the root down to it
(`ancestors` are those down to `dirpath`, both included). A symbolic link
contributes nothing. -/
def specFilesOfEntry (join : GoString → GoString → GoString) (dirpath : GoString)
    (ancestors : List GoString) : Entry → List (GoString × List GoString)
  | .file name => [(join dirpath name, ancestors)]
  | .symlink _ => []
  | .dir name _ entries =>
    specFilesOfEntries join (join dirpath name) (ancestors ++ [join dirpath name]) entries
/-- The plain files below the entries of the directory `dirpath`, in listing
order. -/
def specFilesOfEntries (join : GoString → GoString → GoString) (dirpath : GoString)
    (ancestors : List GoString) : List Entry → List (GoString × List GoString)
  | [] => []
  | fileInfo :: rest =>
    specFilesOfEntry join dirpath ancestors fileInfo
      ++ specFilesOfEntries join dirpath ancestors rest
end

/-- Whether a plain file belongs to the catalog: its full path matches the
include pattern and no directory from the root down to it matches the exclude
pattern. -/
def specKeep (includeMatch excludeMatch : GoString → Bool)
    (f : GoString × List GoString) : Bool :=
  includeMatch f.1 && f.2.all (fun d => !excludeMatch d)

/-- The catalog as the specification describes it, for the root directory `root`
with the entries `entries`. -/
def specCatalog (join : GoString → GoString → GoString)
    (includeMatch excludeMatch : GoString → Bool) (root : GoString)
    (entries : List Entry) : List FileData :=
  ((specFilesOfEntries join root [root] entries).filter
      (specKeep includeMatch excludeMatch)).map
    (fun f => { FilePath := f.1, isCached := false, cachedContents := [] })

mutual
/-- Whether every directory below an entry that the walk reads (none of its
ancestors below `dirpath`, nor itself, matches the exclude pattern) can be
read. -/
def readableEntry (join : GoString → GoString → GoString) (excludeMatch : GoString → Bool)
    (dirpath : GoString) : Entry → Bool
  | .file _ => true
  | .symlink _ => true
  | .dir name readable entries =>
    excludeMatch (join dirpath name) ||
      (readable && readableEntries join excludeMatch (join dirpath name) entries)
/-- The same for the entries of the directory `dirpath`. -/
def readableEntries (join : GoString → GoString → GoString) (excludeMatch : GoString → Bool)
    (dirpath : GoString) : List Entry → Bool
  | [] => true
  | fileInfo :: rest =>
    readableEntry join excludeMatch dirpath fileInfo &&
      readableEntries join excludeMatch dirpath rest
end

/-! ## Concrete inputs of the examples -/

/-- A query that matches every single byte of the content, one match per byte. -/
def everyByte : Regexp where
  allMatches := fun s => (List.range s.length).map (fun (i : Nat) => ((i : Int), (i : Int) + 1))
  inRange := by
    intro s m hm
    simp only [List.mem_map, List.mem_range] at hm
    obtain ⟨i, hi, rfl⟩ := hm
    simp only [len]
    omega

/-- The query `\\Aalpha\\z`: it matches exactly the content `alpha`, as the range
`[0, 5)`. -/
def anchoredAlpha : Regexp where
  allMatches := fun s => if s = bytes "alpha" then [(0, 5)] else []
  inRange := by
    intro s m hm
    by_cases hs : s = bytes "alpha"
    · simp only [hs, if_true, List.mem_singleton] at hm
      subst hm
      subst hs
      decide
    · simp only [hs, if_false, List.not_mem_nil] at hm

/-- Two cached files with distinct paths, `.x.go` and `x.go`, as a walk of the
root `.` lists them. -/
def dotFiles : List FileData :=
  [⟨bytes ".x.go", true, bytes "x"⟩, ⟨bytes "x.go", true, bytes "xx"⟩]

/-- The function `path.Join` on two clean relative paths: the two joined by `/`. -/
def joinSlash (dirpath name : GoString) : GoString := dirpath ++ bytes "/" ++ name

/-- The entries of a small source tree: two plain files, a symbolic link, a
`node_modules` directory and a `src` directory. -/
def sampleTree : List Entry :=
  [.file (bytes "a.go"), .file (bytes "b.txt"), .symlink (bytes "s.go"),
   .dir (bytes "node_modules") false [.file (bytes "c.go")],
   .dir (bytes "src") true [.file (bytes "d.go"), .symlink (bytes "t"), .dir (bytes "e") true []]]

/-- The function `path.Join(dirpath, name)` for a clean directory path without a
final `/` and a plain file name: the two joined by `/`, where `path.Clean` drops
the leading `./` when the directory is `.`. -/
def joinClean (dirpath name : GoString) : GoString :=
  if dirpath = bytes "." then name else dirpath ++ bytes "/" ++ name

/-- Two cached files below the directory `src`. -/
def srcFiles : List FileData :=
  [⟨bytes "src/a.go", true, bytes "x"⟩, ⟨bytes "src/b.go", true, bytes "xx"⟩]

/-! ## Auxiliary definitions of the proofs -/

/-- The offsets following the `'\n'` bytes of `s`, when `s` starts at offset `k`. -/
def nlAfter : GoString → Int → List Int
  | [], _ => []
  | b :: rest, k => if b = newline then (k + 1) :: nlAfter rest (k + 1) else nlAfter rest (k + 1)

/-- What a worker publishes for a file: the result of `SearchInFile` when it is
not `nil`. -/
def fileResult (readFile : GoString → Option GoString) (queryRegexp : Regexp)
    (fileData : FileData) : Option SearchResultsForFile :=
  match SearchInFile readFile fileData queryRegexp with
  | .ok fileSearchResult => fileSearchResult
  | .error _ => none

/-! ## Lemmas on the line index -/

theorem ReadString_eof (s : GoString) (k : Int) (h : (ReadString s).2.2 = true) :
    nlAfter s k = [] := by
  induction s generalizing k with
  | nil => rfl
  | cons b rest ih =>
    by_cases hb : b = newline
    · simp [ReadString, hb] at h
    · simp only [ReadString, hb, if_false] at h
      simp only [nlAfter, hb, if_false]
      exact ih _ h

theorem ReadString_line (s : GoString) (k : Int) (h : (ReadString s).2.2 = false) :
    nlAfter s k = (k + len (ReadString s).1) :: nlAfter (ReadString s).2.1 (k + len (ReadString s).1)
      ∧ (ReadString s).2.1.length < s.length := by
  induction s generalizing k with
  | nil => simp [ReadString] at h
  | cons b rest ih =>
    by_cases hb : b = newline
    · simp [ReadString, hb, nlAfter, len]
    · simp only [ReadString, hb, if_false] at h
      have := ih (k + 1) h
      simp only [ReadString, hb, if_false, nlAfter]
      refine ⟨?_, by simp; omega⟩
      rw [this.1]
      simp only [len, List.length_cons]
      push_cast
      have e : k + 1 + (↑(ReadString rest).1.length : Int) = k + (↑(ReadString rest).1.length + 1) := by ring
      rw [e]

theorem parseLoop_eq (fuel : Nat) (rest : GoString) (charPos : Int) (acc : FileLineInfo)
    (h : rest.length < fuel) :
    parseLoop fuel rest charPos acc = some (acc ++ charPos :: nlAfter rest charPos) := by
  induction fuel generalizing rest charPos acc with
  | zero => omega
  | succ fuel ih =>
    simp only [parseLoop]
    cases hr : (ReadString rest).2.2 with
    | true => simp [ReadString_eof rest charPos hr]
    | false =>
      have hl := ReadString_line rest charPos hr
      simp only [Bool.false_eq_true, if_false]
      rw [ih _ _ _ (by omega), hl.1]
      simp

theorem nlAfter_eq_filter (s : GoString) (k : Int) :
    nlAfter s k =
      ((List.range s.length).filter (fun p => s.get? p == some newline)).map
        (fun (p : Nat) => (p : Int) + 1 + k) := by
  induction s generalizing k with
  | nil => rfl
  | cons b rest ih =>
    rw [List.length_cons, List.range_succ_eq_map, List.filter_cons, List.filter_map]
    simp only [nlAfter, ih]
    by_cases hb : b = newline
    · simp [hb, Function.comp_def]
      constructor
      · ring
      · intro a _ _; ring
    · simp [hb, Function.comp_def]
      intro a _ _; ring

theorem ParseLineStarts_eq (content : GoString) :
    ParseLineStarts content = some (specLineStarts content) := by
  unfold ParseLineStarts
  rw [parseLoop_eq _ _ _ _ (by omega), nlAfter_eq_filter]
  simp [specLineStarts, newlinePositions]

theorem nlAfter_length (s : GoString) (k : Int) : (nlAfter s k).length = s.count newline := by
  induction s generalizing k with
  | nil => rfl
  | cons b rest ih =>
    by_cases hb : b = newline
    · simp [nlAfter, hb, ih]
    · simp [nlAfter, hb, ih, List.count_cons]

theorem specLineStarts_length (content : GoString) :
    (specLineStarts content).length = content.count newline + 1 := by
  have := nlAfter_length content 0
  rw [nlAfter_eq_filter] at this
  simpa [specLineStarts, newlinePositions] using this

theorem specLineStarts_pairwise (content : GoString) :
    (specLineStarts content).Pairwise (· < ·) := by
  unfold specLineStarts
  rw [List.pairwise_cons]
  constructor
  · intro a ha
    rw [List.mem_map] at ha
    obtain ⟨p, _, rfl⟩ := ha
    omega
  · rw [List.pairwise_map]
    refine List.Pairwise.imp ?_ (List.Pairwise.filter _ (List.pairwise_lt_range _))
    intro a b hab
    omega

/-! ## Lemmas on the binary search -/

theorem sortSearchLoop_spec (n : Nat) (f : Nat → Bool)
    (mono : ∀ a b, a ≤ b → b < n → f a = true → f b = true) :
    ∀ (fuel i j : Nat), i ≤ j → j ≤ n → j - i ≤ fuel →
      (∀ k, k < i → f k = false) → (∀ k, j ≤ k → k < n → f k = true) →
      ∃ r, sortSearchLoop fuel i j f = some r ∧ i ≤ r ∧ r ≤ j ∧
        (∀ k, k < r → f k = false) ∧ (∀ k, r ≤ k → k < n → f k = true) := by
  intro fuel
  induction fuel with
  | zero =>
    intro i j hij _ hfuel hlo hhi
    have : i = j := by omega
    subst this
    exact ⟨i, by simp [sortSearchLoop], le_refl _, le_refl _, hlo, hhi⟩
  | succ fuel ih =>
    intro i j hij hjn hfuel hlo hhi
    by_cases hlt : i < j
    · have hh1 : i ≤ (i + j) / 2 := by omega
      have hh2 : (i + j) / 2 < j := by omega
      cases hf : f ((i + j) / 2) with
      | false =>
        obtain ⟨r, hr, h1, h2, h3, h4⟩ := ih ((i + j) / 2 + 1) j (by omega) hjn (by omega)
          (by
            intro k hk
            cases hfk : f k with
            | false => rfl
            | true =>
              have := mono k ((i + j) / 2) (by omega) (by omega) hfk
              rw [hf] at this
              exact absurd this (by simp)) hhi
        exact ⟨r, by simp [sortSearchLoop, hlt, hf, hr], by omega, h2, h3, h4⟩
      | true =>
        obtain ⟨r, hr, h1, h2, h3, h4⟩ := ih i ((i + j) / 2) hh1 (by omega) (by omega) hlo
          (by
            intro k hk hkn
            exact mono _ k hk hkn hf)
        exact ⟨r, by simp [sortSearchLoop, hlt, hf, hr], h1, by omega, h3, h4⟩
    · have : i = j := by omega
      subst this
      exact ⟨i, by simp [sortSearchLoop], le_refl _, le_refl _, hlo, hhi⟩

/-- The loop of `sort.Search` ends within `j - i` iterations, whatever the
predicate. -/
theorem sortSearchLoop_total (f : Nat → Bool) :
    ∀ (fuel i j : Nat), j - i ≤ fuel → ∃ r, sortSearchLoop fuel i j f = some r := by
  intro fuel
  induction fuel with
  | zero =>
    intro i j h
    exact ⟨i, by simp only [sortSearchLoop]; rw [if_neg (by omega)]⟩
  | succ fuel ih =>
    intro i j h
    by_cases hlt : i < j
    · cases hf : f ((i + j) / 2) with
      | false =>
        obtain ⟨r, hr⟩ := ih ((i + j) / 2 + 1) j (by omega)
        exact ⟨r, by simp [sortSearchLoop, hlt, hf, hr]⟩
      | true =>
        obtain ⟨r, hr⟩ := ih i ((i + j) / 2) (by omega)
        exact ⟨r, by simp [sortSearchLoop, hlt, hf, hr]⟩
    · exact ⟨i, by simp [sortSearchLoop, hlt]⟩

/-- The function `sort.Search` returns a position on every predicate. -/
theorem sortSearch_total (n : Nat) (f : Nat → Bool) : ∃ r, sortSearch n f = some r :=
  sortSearchLoop_total f n 0 n (by omega)

/-- The function `sort.Search` returns, on a predicate that is monotone on `[0, n)`, the least
position at which it holds (`n` when there is none). -/
theorem sortSearch_spec (n : Nat) (f : Nat → Bool)
    (mono : ∀ a b, a ≤ b → b < n → f a = true → f b = true) :
    ∃ r, sortSearch n f = some r ∧ r ≤ n ∧
      (∀ k, k < r → f k = false) ∧ (∀ k, r ≤ k → k < n → f k = true) := by
  obtain ⟨r, hr, _, h2, h3, h4⟩ := sortSearchLoop_spec n f mono n 0 n (Nat.zero_le _) (le_refl _)
    (by omega) (by intro k hk; omega) (by intro k hk hkn; omega)
  exact ⟨r, hr, h2, h3, h4⟩

theorem index_natCast (l : List Int) (k : Nat) : index l (k : Int) = l.get? k := by
  simp [index]

theorem index_eq_some {l : List Int} {i v : Int} (h : index l i = some v) :
    0 ≤ i ∧ i < len l ∧ l.get? i.toNat = some v := by
  unfold index at h
  split at h
  · rename_i h0
    refine ⟨h0, ?_, h⟩
    have := List.get?_eq_some.mp h
    obtain ⟨hlt, _⟩ := this
    simp only [len]
    omega
  · cases h

theorem pairwise_getD_lt {l : List Int} (hs : l.Pairwise (· < ·)) {a b : Nat}
    (hab : a < b) (hb : b < l.length) : l.getD a 0 < l.getD b 0 := by
  have ha : a < l.length := by omega
  rw [List.getD_eq_getElem l 0 ha, List.getD_eq_getElem l 0 hb]
  exact List.pairwise_iff_getElem.mp hs a b ha hb hab

/-- On a strictly increasing index whose first entry is at most `charPos`,
`GetSourceLocation` returns the position of the last entry that is at most
`charPos` and the distance of `charPos` from that entry. -/
theorem GetSourceLocation_spec (l : FileLineInfo) (hs : l.Pairwise (· < ·)) (charPos : Int)
    (h0 : 0 < l.length) (hfirst : l.getD 0 0 ≤ charPos) :
    ∃ line : Nat, line < l.length ∧
      GetSourceLocation l charPos = some ⟨(line : Int), charPos - l.getD line 0⟩ ∧
      l.getD line 0 ≤ charPos ∧
      ∀ k, line < k → k < l.length → charPos < l.getD k 0 := by
  obtain ⟨r, hr, hrn, hlo, hhi⟩ := sortSearch_spec l.length
    (fun i => decide (l.getD i 0 > charPos)) (by
      intro a b hab hb ha
      simp only [gt_iff_lt, decide_eq_true_eq] at ha ⊢
      rcases Nat.eq_or_lt_of_le hab with h | h
      · subst h; exact ha
      · exact lt_trans ha (pairwise_getD_lt hs h hb))
  have hrpos : 0 < r := by
    rcases Nat.eq_zero_or_pos r with h | h
    · subst h
      have := hhi 0 (le_refl _) h0
      simp only [gt_iff_lt, decide_eq_true_eq] at this
      omega
    · exact h
  refine ⟨r - 1, by omega, ?_, ?_, ?_⟩
  · have hcast : ((r : Int) - 1) = ((r - 1 : Nat) : Int) := by omega
    have hget : l.get? (r - 1) = some (l.getD (r - 1) 0) := by
      rw [List.getD_eq_getElem l 0 (by omega)]
      exact List.get?_eq_get (by omega)
    simp only [GetSourceLocation, hr, Option.bind_eq_bind, Option.some_bind, hcast,
      index_natCast, hget]
    rfl
  · have := hlo (r - 1) (by omega)
    simp only [gt_iff_lt, decide_eq_false_iff_not, not_lt] at this
    exact this
  · intro k hk hkn
    have := hhi k (by omega) hkn
    simpa using this

theorem specLineStarts_getD_zero (content : GoString) : (specLineStarts content).getD 0 0 = 0 := by
  simp [specLineStarts]

theorem specLineStarts_pos (content : GoString) : 0 < (specLineStarts content).length := by
  simp [specLineStarts]

/-! ## Lemmas on the snippet window -/

theorem specLineStarts_mem_bounds (content : GoString) {v : Int}
    (hv : v ∈ specLineStarts content) : 0 ≤ v ∧ v ≤ len content := by
  simp only [specLineStarts, List.mem_cons, List.mem_map] at hv
  rcases hv with rfl | ⟨p, hp, rfl⟩
  · simp [len]
  · simp only [newlinePositions, List.mem_filter, List.mem_range] at hp
    simp only [len]
    omega

theorem specLineStarts_getD_bounds (content : GoString) {k : Nat}
    (hk : k < (specLineStarts content).length) :
    0 ≤ (specLineStarts content).getD k 0 ∧ (specLineStarts content).getD k 0 ≤ len content := by
  rw [List.getD_eq_getElem _ 0 hk]
  exact specLineStarts_mem_bounds content (List.getElem_mem _)

theorem pairwise_getD_le {l : List Int} (hs : l.Pairwise (· < ·)) {a b : Nat}
    (hab : a ≤ b) (hb : b < l.length) : l.getD a 0 ≤ l.getD b 0 := by
  rcases Nat.eq_or_lt_of_le hab with h | h
  · subst h; exact le_refl _
  · exact le_of_lt (pairwise_getD_lt hs h hb)

theorem index_getD {l : List Int} {k : Nat} (hk : k < l.length) :
    index l (k : Int) = some (l.getD k 0) := by
  rw [index_natCast, List.getD_eq_getElem _ 0 hk]
  exact List.get?_eq_get hk

theorem snippetStartLine_natCast (line : Nat) (col : Int) :
    snippetStartLine ⟨(line : Int), col⟩ = ((line - 2 : Nat) : Int) := by
  simp only [snippetStartLine, maxInt, SNIPPET_LINES_ABOVE]
  split <;> omega

theorem snippetEndLine_natCast (line n : Nat) (col : Int) (hn : 0 < n) :
    snippetEndLine ⟨(line : Int), col⟩ (n : Int) = ((min (line + 3) (n - 1) : Nat) : Int) := by
  simp only [snippetEndLine, minInt, SNIPPET_LINES_BELOW]
  split <;> omega

/-- What `searchMatch` computes for a range `[s, e)` inside the content: the lines
`sl`, `el` of its two ends, the window from the start of line `sl - 2` to the
start of line `min (el + 3) (lineCount - 1)`, and the snippet. -/
theorem searchMatch_eq (content : GoString) (s e : Int)
    (hs : 0 ≤ s) (hse : s ≤ e) (_he : e ≤ len content) :
    ∃ (sl el : Nat),
      sl ≤ el ∧ el < (specLineStarts content).length ∧
      GetSourceLocation (specLineStarts content) s
        = some ⟨(sl : Int), s - (specLineStarts content).getD sl 0⟩ ∧
      GetSourceLocation (specLineStarts content) e
        = some ⟨(el : Int), e - (specLineStarts content).getD el 0⟩ ∧
      (specLineStarts content).getD sl 0 ≤ s ∧
      (∀ k, sl < k → k < (specLineStarts content).length →
        s < (specLineStarts content).getD k 0) ∧
      (specLineStarts content).getD el 0 ≤ e ∧
      (∀ k, el < k → k < (specLineStarts content).length →
        e < (specLineStarts content).getD k 0) ∧
      slice content ((specLineStarts content).getD (sl - 2) 0)
          ((specLineStarts content).getD (min (el + 3) ((specLineStarts content).length - 1)) 0)
        = some ((content.drop ((specLineStarts content).getD (sl - 2) 0).toNat).take
            (((specLineStarts content).getD
                (min (el + 3) ((specLineStarts content).length - 1)) 0).toNat
              - ((specLineStarts content).getD (sl - 2) 0).toNat)) ∧
      searchMatch content (specLineStarts content) (s, e) = some
        { Start := ⟨(sl : Int), s - (specLineStarts content).getD sl 0⟩
          End := ⟨(el : Int), e - (specLineStarts content).getD el 0⟩
          Snippet :=
            { Start := s - (specLineStarts content).getD (sl - 2) 0
              End := e - (specLineStarts content).getD (sl - 2) 0
              Text := TrimRight
                ((content.drop ((specLineStarts content).getD (sl - 2) 0).toNat).take
                  (((specLineStarts content).getD
                      (min (el + 3) ((specLineStarts content).length - 1)) 0).toNat
                    - ((specLineStarts content).getD (sl - 2) 0).toNat)) } } := by
  have hpw := specLineStarts_pairwise content
  have hpos := specLineStarts_pos content
  obtain ⟨sl, hsl, hlocs, hsle, hsgt⟩ := GetSourceLocation_spec (specLineStarts content) hpw s hpos
    (by rw [specLineStarts_getD_zero]; exact hs)
  obtain ⟨el, hel, hloce, hele, hegt⟩ := GetSourceLocation_spec (specLineStarts content) hpw e hpos
    (by rw [specLineStarts_getD_zero]; omega)
  have hslel : sl ≤ el := by
    by_contra hcon
    have := hegt sl (by omega) hsl
    omega
  have hb : min (el + 3) ((specLineStarts content).length - 1) < (specLineStarts content).length := by
    omega
  have ha : sl - 2 < (specLineStarts content).length := by omega
  have hab : (specLineStarts content).getD (sl - 2) 0
      ≤ (specLineStarts content).getD (min (el + 3) ((specLineStarts content).length - 1)) 0 :=
    pairwise_getD_le hpw (by omega) hb
  have hslice : slice content ((specLineStarts content).getD (sl - 2) 0)
          ((specLineStarts content).getD (min (el + 3) ((specLineStarts content).length - 1)) 0)
        = some ((content.drop ((specLineStarts content).getD (sl - 2) 0).toNat).take
            (((specLineStarts content).getD
                (min (el + 3) ((specLineStarts content).length - 1)) 0).toNat
              - ((specLineStarts content).getD (sl - 2) 0).toNat)) := by
    unfold slice
    rw [if_pos]
    exact ⟨(specLineStarts_getD_bounds content ha).1, hab, (specLineStarts_getD_bounds content hb).2⟩
  refine ⟨sl, el, hslel, hel, hlocs, hloce, hsle, hsgt, hele, hegt, hslice, ?_⟩
  simp only [searchMatch, hlocs, hloce, Option.bind_eq_bind, Option.some_bind, len,
    snippetStartLine_natCast, snippetEndLine_natCast _ _ _ hpos, index_getD ha, index_getD hb,
    hslice]
  rfl

/-! ## Lemmas on `TrimRight` and on slices -/

theorem TrimRight_isPrefix (w : GoString) : TrimRight w <+: w :=
  List.rdropWhile_prefix _ w

theorem TrimRight_length_gt (w : GoString) (q : Nat) (b : Nat)
    (hq : w.get? q = some b) (hb : b ≠ newline) : q < (TrimRight w).length := by
  induction w using List.reverseRecOn with
  | nil => simp at hq
  | append_singleton init x ih =>
    unfold TrimRight at ih ⊢
    rw [List.rdropWhile_concat]
    by_cases hx : x = newline
    · simp only [hx, beq_self_eq_true, if_true]
      apply ih
      have hlt : q < (init ++ [x]).length := (List.get?_eq_some.mp hq).1
      by_cases hqi : q < init.length
      · rw [List.get?_eq_getElem?] at hq ⊢
        rw [List.getElem?_append_left hqi] at hq
        exact hq
      · have hqe : q = init.length := by
          simp only [List.length_append, List.length_singleton] at hlt
          omega
        subst hqe
        simp only [List.get?_eq_getElem?, List.getElem?_concat_length, Option.some.injEq] at hq
        exact absurd (hq ▸ hx) hb
    · have : (x == newline) = false := by simpa using hx
      simp only [this, Bool.false_eq_true, if_false]
      exact (List.get?_eq_some.mp hq).1

theorem slice_eq_some {w : GoString} {a b : Int} (h0 : 0 ≤ a) (hab : a ≤ b) (hb : b ≤ len w) :
    slice w a b = some ((w.drop a.toNat).take (b.toNat - a.toNat)) := by
  unfold slice
  rw [if_pos ⟨h0, hab, hb⟩]

theorem slice_of_isPrefix {t w : GoString} (h : t <+: w) {a b : Int}
    (h0 : 0 ≤ a) (hab : a ≤ b) (hb : b ≤ len t) : slice t a b = slice w a b := by
  obtain ⟨u, rfl⟩ := h
  have hb2 : b ≤ len (t ++ u) := by
    simp only [len, List.length_append] at hb ⊢
    omega
  rw [slice_eq_some h0 hab hb, slice_eq_some h0 hab hb2]
  simp only [len] at hb
  congr 1
  have h1 : a.toNat ≤ t.length := by omega
  rw [List.drop_append_of_le_length h1, List.take_append_of_le_length]
  simp only [List.length_drop]
  omega

theorem slice_drop_take (content : GoString) (ws n : Nat) (hws : ws ≤ content.length)
    {a b : Int} (h0 : 0 ≤ a) (hab : a ≤ b) (hb : b ≤ len ((content.drop ws).take n)) :
    slice ((content.drop ws).take n) a b = slice content ((ws : Int) + a) ((ws : Int) + b) := by
  have hb' := hb
  simp only [len, List.length_take, List.length_drop] at hb'
  have hb2 : (ws : Int) + b ≤ len content := by
    simp only [len]
    omega
  rw [slice_eq_some h0 hab hb, slice_eq_some (by omega) (by omega) hb2]
  congr 1
  have e1 : ((ws : Int) + a).toNat = ws + a.toNat := by omega
  have e2 : ((ws : Int) + b).toNat = ws + b.toNat := by omega
  rw [e1, e2, List.drop_take, List.take_take, List.drop_drop]
  congr 1
  omega

/-! ## Lemmas on `SearchInFile` -/

theorem searchMatches_eq (content : GoString) (lineStarts : FileLineInfo) :
    ∀ (ms : List (Int × Int)) (acc : List SearchFileResult),
      (∀ m ∈ ms, ∃ r, searchMatch content lineStarts m = some r) →
      ∃ rs, searchMatches content lineStarts ms acc = some (acc ++ rs) ∧
        List.Forall₂ (fun m r => searchMatch content lineStarts m = some r) ms rs := by
  intro ms
  induction ms with
  | nil =>
    intro acc _
    exact ⟨[], by simp [searchMatches], List.Forall₂.nil⟩
  | cons m ms ih =>
    intro acc h
    obtain ⟨r, hr⟩ := h m (List.mem_cons_self _ _)
    obtain ⟨rs, hrs, hall⟩ := ih (acc ++ [r]) (fun m' hm' => h m' (List.mem_cons_of_mem _ hm'))
    refine ⟨r :: rs, ?_, List.Forall₂.cons hr hall⟩
    simp only [searchMatches, hr, Option.bind_eq_bind, Option.some_bind, hrs]
    simp

theorem searchMatch_isSome (content : GoString) (m : Int × Int)
    (hm : 0 ≤ m.1 ∧ m.1 ≤ m.2 ∧ m.2 ≤ len content) :
    ∃ r, searchMatch content (specLineStarts content) m = some r := by
  obtain ⟨sl, el, _, _, _, _, _, _, _, _, _, hres⟩ :=
    searchMatch_eq content m.1 m.2 hm.1 hm.2.1 hm.2.2
  exact ⟨_, hres⟩

theorem FindAllStringIndex_max (re : Regexp) (content : GoString) :
    FindAllStringIndex re content MAX_RESULTS_PER_FILE
      = if (re.allMatches content).take 10 = [] then none
        else some ((re.allMatches content).take 10) := by
  simp only [FindAllStringIndex, MAX_RESULTS_PER_FILE]
  have h1 : ¬ ((10 : Int) < 0) := by decide
  have h2 : (10 : Int).toNat = 10 := rfl
  rw [if_neg h1, h2]
  cases hl : List.take 10 (re.allMatches content) <;> simp

theorem take_ten_eq_nil {α : Type} (l : List α) : l.take 10 = [] ↔ l = [] := by
  cases l <;> simp

/-- On a cached file whose match ranges lie inside the content, `SearchInFile`
returns `nil` when there is no match and otherwise one result per range of the
capped scan, in the same order. -/
theorem SearchInFile_eq (readFile : GoString → Option GoString) (fileData : FileData)
    (queryRegexp : Regexp) (hc : fileData.isCached = true) :
    (queryRegexp.allMatches fileData.cachedContents = [] ∧
      SearchInFile readFile fileData queryRegexp = .ok none) ∨
    (queryRegexp.allMatches fileData.cachedContents ≠ [] ∧
      ∃ results,
        SearchInFile readFile fileData queryRegexp
          = .ok (some ⟨fileData.FilePath, results⟩) ∧
        List.Forall₂
          (fun m r => searchMatch fileData.cachedContents
            (specLineStarts fileData.cachedContents) m = some r)
          ((queryRegexp.allMatches fileData.cachedContents).take 10) results) := by
  by_cases hnil : queryRegexp.allMatches fileData.cachedContents = []
  · left
    refine ⟨hnil, ?_⟩
    simp [SearchInFile, GetContents, hc, FindAllStringIndex_max, hnil]
  · right
    refine ⟨hnil, ?_⟩
    obtain ⟨rs, hrs, hall⟩ := searchMatches_eq fileData.cachedContents
      (specLineStarts fileData.cachedContents)
      ((queryRegexp.allMatches fileData.cachedContents).take 10) []
      (fun m hm => searchMatch_isSome _ m (queryRegexp.inRange _ m (List.mem_of_mem_take hm)))
    refine ⟨rs, ?_, hall⟩
    have hne : ¬ (queryRegexp.allMatches fileData.cachedContents).take 10 = [] := by
      rw [take_ten_eq_nil]; exact hnil
    simp only [SearchInFile, GetContents, hc, if_true, FindAllStringIndex_max, if_neg hne,
      ParseLineStarts_eq, hrs, List.nil_append]

/-! ## Lemmas on the collector -/

theorem mapGet_filter_ne (m : SearchDirResults) (k k' : GoString) (h : k' ≠ k) :
    mapGet (m.filter (fun e => e.1 != k)) k' = mapGet m k' := by
  induction m with
  | nil => rfl
  | cons e m ih =>
    obtain ⟨ek, ev⟩ := e
    unfold mapGet at ih ⊢
    by_cases hek : ek = k
    · subst hek
      have hne : (k' == ek) = false := by simpa using h
      simp [List.filter_cons, List.lookup_cons, hne, ih]
    · have : (ek != k) = true := by simpa using hek
      simp only [List.filter_cons, this, if_true, List.lookup_cons]
      rw [ih]

theorem mapGet_mapSet (m : SearchDirResults) (k k' : GoString) (v : List SearchFileResult) :
    mapGet (mapSet m k v) k' = if k' = k then some v else mapGet m k' := by
  by_cases h : k' = k
  · subst h
    simp [mapGet, mapSet, List.lookup_cons]
  · have hne : (k' == k) = false := by simpa using h
    rw [if_neg h, ← mapGet_filter_ne m k k' h]
    simp [mapGet, mapSet, List.lookup_cons, hne]

theorem mapSet_keys_nodup (m : SearchDirResults) (k : GoString) (v : List SearchFileResult)
    (h : (m.map Prod.fst).Nodup) : ((mapSet m k v).map Prod.fst).Nodup := by
  simp only [mapSet, List.map_cons, List.nodup_cons]
  constructor
  · simp only [List.mem_map, List.mem_filter, not_exists, not_and]
    intro e he hk
    simp [hk] at he
  · exact List.Nodup.sublist (List.Sublist.map _ (List.filter_sublist _)) h

theorem mapSet_length_of_not_mem (m : SearchDirResults) (k : GoString)
    (v : List SearchFileResult) (h : k ∉ m.map Prod.fst) :
    (mapSet m k v).length = m.length + 1 := by
  simp only [mapSet, List.length_cons, add_left_inj]
  congr 1
  rw [List.filter_eq_self]
  intro e he
  have : e.1 ≠ k := by
    intro hk
    exact h (List.mem_map.mpr ⟨e, he, hk⟩)
  simpa using this

theorem mapSet_keys (m : SearchDirResults) (k k' : GoString) (v : List SearchFileResult) :
    k' ∈ (mapSet m k v).map Prod.fst ↔ k' = k ∨ k' ∈ m.map Prod.fst := by
  simp only [mapSet, List.map_cons, List.mem_cons, List.mem_map, List.mem_filter]
  constructor
  · rintro (h | ⟨e, ⟨he, _⟩, hk⟩)
    · exact Or.inl h
    · exact Or.inr ⟨e, he, hk⟩
  · rintro (h | ⟨e, he, hk⟩)
    · exact Or.inl h
    · by_cases hkk : k' = k
      · exact Or.inl hkk
      · refine Or.inr ⟨e, ⟨he, ?_⟩, hk⟩
        rw [hk]
        simpa using hkk

/-- Every entry of the collected mapping is either an entry of the initial
mapping or the result list of a received result, under its trimmed path. -/
theorem collectResults_mapGet (pathPrefix : GoString) :
    ∀ (received : List SearchResultsForFile) (m : SearchDirResults) (k : GoString)
      (v : List SearchFileResult),
      mapGet (collectResults pathPrefix received m) k = some v →
      mapGet m k = some v ∨
        ∃ r ∈ received, TrimPrefix r.FilePath pathPrefix = k ∧ r.Results = v := by
  intro received
  induction received with
  | nil =>
    intro m k v h
    exact Or.inl h
  | cons r rest ih =>
    intro m k v h
    simp only [collectResults] at h
    rcases ih _ k v h with h1 | ⟨r', hr', hk, hv⟩
    · rw [mapGet_mapSet] at h1
      by_cases hkk : k = TrimPrefix r.FilePath pathPrefix
      · rw [if_pos hkk] at h1
        right
        exact ⟨r, List.mem_cons_self _ _, hkk.symm, by simpa using h1⟩
      · rw [if_neg hkk] at h1
        exact Or.inl h1
    · right
      exact ⟨r', List.mem_cons_of_mem _ hr', hk, hv⟩

/-- With pairwise distinct trimmed paths, none of them in the initial mapping,
the collected mapping gains one entry per received result, and each result list
is stored under its own trimmed path. -/
theorem collectResults_distinct (pathPrefix : GoString) :
    ∀ (received : List SearchResultsForFile) (m : SearchDirResults),
      (received.map (fun r => TrimPrefix r.FilePath pathPrefix)).Nodup →
      (∀ r ∈ received, TrimPrefix r.FilePath pathPrefix ∉ m.map Prod.fst) →
      (m.map Prod.fst).Nodup →
      (collectResults pathPrefix received m).length = m.length + received.length ∧
      ((collectResults pathPrefix received m).map Prod.fst).Nodup ∧
      (∀ r ∈ received, mapGet (collectResults pathPrefix received m)
        (TrimPrefix r.FilePath pathPrefix) = some r.Results) ∧
      (∀ k, k ∉ received.map (fun r => TrimPrefix r.FilePath pathPrefix) →
        mapGet (collectResults pathPrefix received m) k = mapGet m k) := by
  intro received
  induction received with
  | nil =>
    intro m _ _ hm
    exact ⟨by simp [collectResults], hm, by simp, by simp [collectResults]⟩
  | cons r rest ih =>
    intro m hnd hnot hm
    rw [List.map_cons, List.nodup_cons] at hnd
    obtain ⟨hr, hrest⟩ := hnd
    have hrm := hnot r (List.mem_cons_self _ _)
    obtain ⟨h1, h2, h3, h4⟩ := ih
      (mapSet m (TrimPrefix r.FilePath pathPrefix) r.Results) hrest
      (by
        intro r' hr' hmem
        rw [mapSet_keys] at hmem
        rcases hmem with h | h
        · exact hr (h ▸ List.mem_map.mpr ⟨r', hr', rfl⟩)
        · exact hnot r' (List.mem_cons_of_mem _ hr') h)
      (mapSet_keys_nodup _ _ _ hm)
    refine ⟨?_, h2, ?_, ?_⟩
    · simp only [collectResults, h1, mapSet_length_of_not_mem _ _ _ hrm, List.length_cons]
      omega
    · intro r' hr'
      simp only [collectResults]
      rcases List.mem_cons.mp hr' with h | h
      · subst h
        rw [h4 _ hr, mapGet_mapSet, if_pos rfl]
      · exact h3 r' h
    · intro k hk
      simp only [List.map_cons, List.mem_cons, not_or] at hk
      simp only [collectResults]
      rw [h4 k hk.2, mapGet_mapSet, if_neg hk.1]

/-! ## Lemmas on the published results -/

theorem fileResult_spec (readFile : GoString → Option GoString) (queryRegexp : Regexp)
    (fileData : FileData) (hc : fileData.isCached = true) :
    SearchInFile readFile fileData queryRegexp = .ok (fileResult readFile queryRegexp fileData) ∧
    SearchWorker readFile queryRegexp fileData = .ok (fileResult readFile queryRegexp fileData) ∧
    (hasMatch queryRegexp fileData = false → fileResult readFile queryRegexp fileData = none) ∧
    (hasMatch queryRegexp fileData = true →
      ∃ results, results ≠ [] ∧
        fileResult readFile queryRegexp fileData = some ⟨fileData.FilePath, results⟩) := by
  rcases SearchInFile_eq readFile fileData queryRegexp hc with
    ⟨hnil, hres⟩ | ⟨hne, rs, hres, hall⟩
  · refine ⟨by simp [fileResult, hres], by simp [SearchWorker, fileResult, hres],
      fun _ => by simp [fileResult, hres], ?_⟩
    intro h
    simp [hasMatch, hnil] at h
  · refine ⟨by simp [fileResult, hres], by simp [SearchWorker, fileResult, hres], ?_, ?_⟩
    · intro h
      simp only [hasMatch, Bool.not_eq_false', List.isEmpty_iff] at h
      exact absurd h hne
    · intro _
      refine ⟨rs, ?_, by simp [fileResult, hres]⟩
      intro hrs
      subst hrs
      have := hall.length_eq
      simp only [List.length_take, List.length_nil] at this
      have hpos : 0 < (queryRegexp.allMatches fileData.cachedContents).length :=
        List.length_pos.mpr hne
      omega

theorem publishedResults_eq (readFile : GoString → Option GoString) (queryRegexp : Regexp)
    (fileDataSet : List FileData)
    (hcached : ∀ fd ∈ fileDataSet, fd.isCached = true) (arrival : List Nat) :
    publishedResults readFile queryRegexp fileDataSet arrival
      = .ok (arrival.filterMap
          (fun i => (fileDataSet.get? i).bind (fileResult readFile queryRegexp))) := by
  induction arrival with
  | nil => rfl
  | cons i arrival ih =>
    simp only [publishedResults, ih, List.filterMap_cons]
    cases hget : fileDataSet.get? i with
    | none => simp
    | some fd =>
      have hmem : fd ∈ fileDataSet := List.get?_mem hget
      have hw := (fileResult_spec readFile queryRegexp fd (hcached fd hmem)).2.1
      simp only [hw, Option.some_bind]
      cases fileResult readFile queryRegexp fd <;> rfl

theorem filterMap_range_get? {α β : Type} (l : List α) (g : α → Option β) :
    (List.range l.length).filterMap (fun i => (l.get? i).bind g) = l.filterMap g := by
  induction l using List.reverseRecOn with
  | nil => rfl
  | append_singleton init x ih =>
    rw [List.length_append, List.length_singleton, List.range_succ, List.filterMap_append,
      List.filterMap_append]
    congr 1
    · rw [← ih]
      apply List.filterMap_congr
      intro i hi
      rw [List.mem_range] at hi
      simp only [List.get?_eq_getElem?]
      rw [List.getElem?_append_left hi]
    · simp only [List.filterMap_cons, List.filterMap_nil, List.get?_eq_getElem?,
        List.getElem?_concat_length, Option.some_bind]

theorem published_perm (readFile : GoString → Option GoString) (queryRegexp : Regexp)
    (fileDataSet : List FileData) (arrival : List Nat)
    (harrival : arrival.Perm (List.range fileDataSet.length)) :
    (arrival.filterMap (fun i => (fileDataSet.get? i).bind (fileResult readFile queryRegexp))).Perm
      (fileDataSet.filterMap (fileResult readFile queryRegexp)) := by
  rw [← filterMap_range_get? fileDataSet (fileResult readFile queryRegexp)]
  exact harrival.filterMap _

theorem filterMap_fileResult_paths (readFile : GoString → Option GoString)
    (queryRegexp : Regexp) (fileDataSet : List FileData)
    (hcached : ∀ fd ∈ fileDataSet, fd.isCached = true) :
    (fileDataSet.filterMap (fileResult readFile queryRegexp)).map (fun r => r.FilePath)
      = (fileDataSet.filter (hasMatch queryRegexp)).map (fun fd => fd.FilePath) := by
  induction fileDataSet with
  | nil => rfl
  | cons fd rest ih =>
    have hspec := fileResult_spec readFile queryRegexp fd
      (hcached fd (List.mem_cons_self _ _))
    have ih' := ih (fun fd' h => hcached fd' (List.mem_cons_of_mem _ h))
    cases hm : hasMatch queryRegexp fd with
    | false =>
      simp only [List.filterMap_cons, hspec.2.2.1 hm, List.filter_cons, hm]
      simpa using ih'
    | true =>
      obtain ⟨rs, _, hrs⟩ := hspec.2.2.2 hm
      simp only [List.filterMap_cons, hrs, List.filter_cons, hm, List.map_cons, if_true]
      rw [ih']

/-! ## Lemmas on the directory walk -/

mutual
theorem specFilesOfEntry_ancestors (join : GoString → GoString → GoString)
    (dirpath : GoString) (ancestors : List GoString) (d : GoString) (hd : d ∈ ancestors) :
    ∀ (e : Entry), ∀ f ∈ specFilesOfEntry join dirpath ancestors e, d ∈ f.2
  | .file name, f, hf => by
    simp only [specFilesOfEntry, List.mem_singleton] at hf
    subst hf
    exact hd
  | .symlink _, f, hf => by
    simp [specFilesOfEntry] at hf
  | .dir name _ entries, f, hf => by
    simp only [specFilesOfEntry] at hf
    exact specFilesOfEntries_ancestors join (join dirpath name) (ancestors ++ [join dirpath name])
      d (List.mem_append_left _ hd) entries f hf
theorem specFilesOfEntries_ancestors (join : GoString → GoString → GoString)
    (dirpath : GoString) (ancestors : List GoString) (d : GoString) (hd : d ∈ ancestors) :
    ∀ (es : List Entry), ∀ f ∈ specFilesOfEntries join dirpath ancestors es, d ∈ f.2
  | [], f, hf => by
    simp [specFilesOfEntries] at hf
  | e :: es, f, hf => by
    simp only [specFilesOfEntries, List.mem_append] at hf
    rcases hf with hf | hf
    · exact specFilesOfEntry_ancestors join dirpath ancestors d hd e f hf
    · exact specFilesOfEntries_ancestors join dirpath ancestors d hd es f hf
end

theorem filter_specKeep_of_excluded (includeMatch excludeMatch : GoString → Bool)
    (d : GoString) (hd : excludeMatch d = true) (l : List (GoString × List GoString))
    (h : ∀ f ∈ l, d ∈ f.2) : l.filter (specKeep includeMatch excludeMatch) = [] := by
  rw [List.filter_eq_nil_iff]
  intro f hf
  simp only [specKeep, Bool.and_eq_true, List.all_eq_true, Bool.not_eq_true', not_and,
    not_forall]
  intro _
  exact ⟨d, h f hf, by simp [hd]⟩

mutual
theorem scanEntry_spec (join : GoString → GoString → GoString)
    (includeMatch excludeMatch : GoString → Bool) (dirpath : GoString)
    (ancestors : List GoString)
    (hanc : ancestors.all (fun d => !excludeMatch d) = true) :
    ∀ (e : Entry), readableEntry join excludeMatch dirpath e = true →
      scanEntry join (some includeMatch) (some excludeMatch) dirpath e
        = .ok (((specFilesOfEntry join dirpath ancestors e).filter
            (specKeep includeMatch excludeMatch)).map
          (fun f => { FilePath := f.1, isCached := false, cachedContents := [] }))
  | .file name, _ => by
    cases hinc : includeMatch (join dirpath name) <;>
      simp [scanEntry, specFilesOfEntry, specKeep, hinc, List.filter_cons, hanc]
  | .symlink _, _ => by
    simp [scanEntry, specFilesOfEntry]
  | .dir name readable entries, hr => by
    simp only [readableEntry, Bool.or_eq_true, Bool.and_eq_true] at hr
    simp only [scanEntry, specFilesOfEntry, dirBody]
    cases hex : excludeMatch (join dirpath name) with
    | true =>
      rw [filter_specKeep_of_excluded includeMatch excludeMatch (join dirpath name) hex _
        (fun f hf => specFilesOfEntries_ancestors join (join dirpath name) _ _
          (List.mem_append_right _ (List.mem_singleton_self _)) entries f hf)]
      simp
    | false =>
      rcases hr with hr | ⟨hread, hsub⟩
      · rw [hex] at hr
        cases hr
      · obtain ⟨lists, hl, hflat⟩ := scanEntries_spec join includeMatch excludeMatch
          (join dirpath name) (ancestors ++ [join dirpath name])
          (by simp [List.all_append, hanc, hex]) entries hsub
        simp [hread, hl, hflat]
theorem scanEntries_spec (join : GoString → GoString → GoString)
    (includeMatch excludeMatch : GoString → Bool) (dirpath : GoString)
    (ancestors : List GoString)
    (hanc : ancestors.all (fun d => !excludeMatch d) = true) :
    ∀ (es : List Entry), readableEntries join excludeMatch dirpath es = true →
      ∃ lists, scanEntries join (some includeMatch) (some excludeMatch) dirpath es = .ok lists ∧
        lists.flatten = ((specFilesOfEntries join dirpath ancestors es).filter
            (specKeep includeMatch excludeMatch)).map
          (fun f => { FilePath := f.1, isCached := false, cachedContents := [] })
  | [], _ => ⟨[], by simp [scanEntries], by simp [specFilesOfEntries]⟩
  | e :: es, hr => by
    simp only [readableEntries, Bool.and_eq_true] at hr
    have he := scanEntry_spec join includeMatch excludeMatch dirpath ancestors hanc e hr.1
    obtain ⟨lists, hl, hflat⟩ :=
      scanEntries_spec join includeMatch excludeMatch dirpath ancestors hanc es hr.2
    have hrun : scanEntries join (some includeMatch) (some excludeMatch) dirpath (e :: es)
        = .ok ((((specFilesOfEntry join dirpath ancestors e).filter
            (specKeep includeMatch excludeMatch)).map
          (fun f => { FilePath := f.1, isCached := false, cachedContents := [] })) :: lists) := by
      simp only [scanEntries, he, hl]
    refine ⟨_, hrun, ?_⟩
    simp [specFilesOfEntries, hflat]
end

mutual
theorem scanEntry_unreadable (join : GoString → GoString → GoString)
    (includeMatch excludeMatch : GoString → Bool) (dirpath : GoString) :
    ∀ (e : Entry), readableEntry join excludeMatch dirpath e = false →
      scanEntry join (some includeMatch) (some excludeMatch) dirpath e = .error .error
  | .file _, hr => by
    simp [readableEntry] at hr
  | .symlink _, hr => by
    simp [readableEntry] at hr
  | .dir name readable entries, hr => by
    simp only [readableEntry, Bool.or_eq_false_iff, Bool.and_eq_false_iff] at hr
    obtain ⟨hex, hsub⟩ := hr
    simp only [scanEntry, dirBody, hex, Bool.false_eq_true, if_false]
    rcases hsub with hread | hsub
    · simp [hread]
    · rw [scanEntries_unreadable join includeMatch excludeMatch (join dirpath name) entries hsub]
      cases readable <;> simp
theorem scanEntries_unreadable (join : GoString → GoString → GoString)
    (includeMatch excludeMatch : GoString → Bool) (dirpath : GoString) :
    ∀ (es : List Entry), readableEntries join excludeMatch dirpath es = false →
      scanEntries join (some includeMatch) (some excludeMatch) dirpath es = .error .error
  | [], hr => by
    simp [readableEntries] at hr
  | e :: es, hr => by
    simp only [readableEntries, Bool.and_eq_false_iff] at hr
    cases he : readableEntry join excludeMatch dirpath e with
    | false =>
      simp only [scanEntries,
        scanEntry_unreadable join includeMatch excludeMatch dirpath e he]
    | true =>
      rw [he] at hr
      have hes : readableEntries join excludeMatch dirpath es = false := by
        rcases hr with h | h
        · cases h
        · exact h
      simp only [scanEntries,
        scanEntry_spec join includeMatch excludeMatch dirpath [] rfl e he,
        scanEntries_unreadable join includeMatch excludeMatch dirpath es hes]
end

/-! ## LineIndexer: the line index and the location of an offset -/

/-- C2: for every content, `ParseLineStarts` succeeds and returns `0` followed by
`p + 1` for each position `p` of a `'\n'` byte, in ascending order; its first
entry is `0`, it is strictly increasing, and its length is the number of `'\n'`
bytes plus one. -/
theorem ParseLineStarts_spec (content : GoString) :
    ∃ lineStarts : FileLineInfo,
      ParseLineStarts content = some lineStarts ∧
      lineStarts = 0 :: (newlinePositions content).map (fun (p : Nat) => (p : Int) + 1) ∧
      (∀ p : Nat, p ∈ newlinePositions content ↔ content.get? p = some newline) ∧
      (newlinePositions content).Pairwise (· < ·) ∧
      lineStarts.head? = some 0 ∧
      lineStarts.Pairwise (· < ·) ∧
      lineStarts.length = content.count newline + 1 := by
  refine ⟨specLineStarts content, ParseLineStarts_eq content, rfl, ?_, ?_, rfl,
    specLineStarts_pairwise content, specLineStarts_length content⟩
  · intro p
    simp only [newlinePositions, List.mem_filter, List.mem_range, beq_iff_eq]
    constructor
    · exact fun h => h.2
    · intro h
      exact ⟨(List.get?_eq_some.mp h).1, h⟩
  · exact List.Pairwise.filter _ (List.pairwise_lt_range _)

/-- C1: for every content and every offset with `0 ≤ offset ≤ len(content)`, over
the index built by `ParseLineStarts`, `GetSourceLocation(offset)` returns the
position `Line` of the last index entry that is `≤ offset` (every later entry is
`> offset`), with `Col = offset - index[Line]`, `Col ≥ 0` and
`index[Line] + Col = offset`. -/
theorem GetSourceLocation_line_col (content : GoString) (offset : Int)
    (h0 : 0 ≤ offset) (_hlen : offset ≤ len content) :
    ∃ (lineStarts : FileLineInfo) (loc : SourceLocation) (lineStart : Int),
      ParseLineStarts content = some lineStarts ∧
      GetSourceLocation lineStarts offset = some loc ∧
      index lineStarts loc.Line = some lineStart ∧
      lineStart ≤ offset ∧
      (∀ (k v : Int), loc.Line < k → index lineStarts k = some v → offset < v) ∧
      loc.Col = offset - lineStart ∧
      0 ≤ loc.Col ∧
      lineStart + loc.Col = offset := by
  obtain ⟨line, hline, hloc, hle, hgt⟩ := GetSourceLocation_spec (specLineStarts content)
    (specLineStarts_pairwise content) offset (specLineStarts_pos content)
    (by rw [specLineStarts_getD_zero]; exact h0)
  refine ⟨specLineStarts content, _, (specLineStarts content).getD line 0,
    ParseLineStarts_eq content, hloc, ?_, hle, ?_, rfl, ?_, ?_⟩
  · rw [index_natCast, List.getD_eq_getElem _ 0 hline]
    exact List.get?_eq_get hline
  · intro k v hk hv
    obtain ⟨hk0, hklen, hget⟩ := index_eq_some hv
    have hkn : k.toNat < (specLineStarts content).length := by
      simp only [len] at hklen
      omega
    have := hgt k.toNat (by simp only at hk; omega) hkn
    rw [List.getD_eq_getElem _ 0 hkn] at this
    rw [List.get?_eq_get hkn] at hget
    simp only [List.get_eq_getElem, Option.some.injEq] at hget
    rw [← hget]
    exact this
  · simp only
    omega
  · simp only
    omega

theorem GetSourceLocation_line_col_witness :
    ∃ (lineStarts : FileLineInfo) (loc : SourceLocation) (lineStart : Int),
      ParseLineStarts (bytes "alpha\nbeta gamma\nalpha\n") = some lineStarts ∧
      GetSourceLocation lineStarts 22 = some loc ∧
      index lineStarts loc.Line = some lineStart ∧
      lineStart ≤ 22 ∧
      (∀ (k v : Int), loc.Line < k → index lineStarts k = some v → 22 < v) ∧
      loc.Col = 22 - lineStart ∧
      0 ≤ loc.Col ∧
      lineStart + loc.Col = 22 :=
  GetSourceLocation_line_col (bytes "alpha\nbeta gamma\nalpha\n") 22 (by decide) (by decide)

/-! ## SnippetBuilder: the window stays inside the file -/

/-- C7: for every content and every match range `[s, e)` with
`0 ≤ s ≤ e ≤ len(content)`, the snippet computation of `SearchInFile` indexes
and slices in range: both `GetSourceLocation` calls return a line that is an
existing index entry, `0 ≤ snippetStartLine ≤ snippetEndLine ≤ lineCount - 1`,
both reads of the index succeed, `0 ≤ snippetStartCharPos ≤ snippetEndCharPos ≤
len(content)`, the slice of the content succeeds, and the loop body yields a
result. -/
theorem searchMatch_in_range (content : GoString) (s e : Int)
    (hs : 0 ≤ s) (hse : s ≤ e) (he : e ≤ len content) :
    ∃ (lineStarts : FileLineInfo) (startLocation endLocation : SourceLocation)
      (snippetStartCharPos snippetEndCharPos : Int) (window : GoString)
      (result : SearchFileResult),
      ParseLineStarts content = some lineStarts ∧
      GetSourceLocation lineStarts s = some startLocation ∧
      GetSourceLocation lineStarts e = some endLocation ∧
      (0 ≤ startLocation.Line ∧ startLocation.Line < len lineStarts) ∧
      (0 ≤ endLocation.Line ∧ endLocation.Line < len lineStarts) ∧
      0 ≤ snippetStartLine startLocation ∧
      snippetStartLine startLocation ≤ snippetEndLine endLocation (len lineStarts) ∧
      snippetEndLine endLocation (len lineStarts) ≤ len lineStarts - 1 ∧
      index lineStarts (snippetStartLine startLocation) = some snippetStartCharPos ∧
      index lineStarts (snippetEndLine endLocation (len lineStarts)) = some snippetEndCharPos ∧
      0 ≤ snippetStartCharPos ∧
      snippetStartCharPos ≤ snippetEndCharPos ∧
      snippetEndCharPos ≤ len content ∧
      slice content snippetStartCharPos snippetEndCharPos = some window ∧
      searchMatch content lineStarts (s, e) = some result := by
  obtain ⟨sl, el, hslel, hel, hlocs, hloce, _, _, _, _, hslice, hres⟩ :=
    searchMatch_eq content s e hs hse he
  have hpw := specLineStarts_pairwise content
  have hpos := specLineStarts_pos content
  have hb : min (el + 3) ((specLineStarts content).length - 1) < (specLineStarts content).length := by
    omega
  have ha : sl - 2 < (specLineStarts content).length := by omega
  refine ⟨specLineStarts content, _, _, _, _, _, _, ParseLineStarts_eq content, hlocs, hloce,
    ?_, ?_, ?_, ?_, ?_, ?_, ?_, (specLineStarts_getD_bounds content ha).1,
    pairwise_getD_le hpw (by omega) hb, (specLineStarts_getD_bounds content hb).2, hslice, hres⟩
  · simp only [len]; omega
  · simp only [len]; omega
  · rw [snippetStartLine_natCast]; omega
  · rw [snippetStartLine_natCast, len, snippetEndLine_natCast _ _ _ hpos]; omega
  · rw [len, snippetEndLine_natCast _ _ _ hpos]; omega
  · rw [snippetStartLine_natCast]; exact index_getD ha
  · rw [len, snippetEndLine_natCast _ _ _ hpos]; exact index_getD hb

theorem searchMatch_in_range_witness :
    ∃ (lineStarts : FileLineInfo) (startLocation endLocation : SourceLocation)
      (snippetStartCharPos snippetEndCharPos : Int) (window : GoString)
      (result : SearchFileResult),
      ParseLineStarts (bytes "alpha") = some lineStarts ∧
      GetSourceLocation lineStarts 0 = some startLocation ∧
      GetSourceLocation lineStarts 5 = some endLocation ∧
      (0 ≤ startLocation.Line ∧ startLocation.Line < len lineStarts) ∧
      (0 ≤ endLocation.Line ∧ endLocation.Line < len lineStarts) ∧
      0 ≤ snippetStartLine startLocation ∧
      snippetStartLine startLocation ≤ snippetEndLine endLocation (len lineStarts) ∧
      snippetEndLine endLocation (len lineStarts) ≤ len lineStarts - 1 ∧
      index lineStarts (snippetStartLine startLocation) = some snippetStartCharPos ∧
      index lineStarts (snippetEndLine endLocation (len lineStarts)) = some snippetEndCharPos ∧
      0 ≤ snippetStartCharPos ∧
      snippetStartCharPos ≤ snippetEndCharPos ∧
      snippetEndCharPos ≤ len (bytes "alpha") ∧
      slice (bytes "alpha") snippetStartCharPos snippetEndCharPos = some window ∧
      searchMatch (bytes "alpha") lineStarts (0, 5) = some result :=
  searchMatch_in_range (bytes "alpha") 0 5 (by decide) (by decide) (by decide)

/-! ## SnippetBuilder: the match offsets inside the snippet text -/

/-- C3 fails on the code: on the cached content `"alpha"` (a single line without
a final `'\n'`) the query `\Aalpha\z` has the match range `[0, 5)`; the window
of `SearchInFile` ends at the start of line `min (0 + 3) (lineCount - 1) = 0`,
so the snippet text is `contents[0:0]`, the empty string, while the snippet has
`Start = 0` and `End = 5`: `End > len(Text)`, and `Text[Start:End]` is out of
range instead of being the matched text `"alpha"`. -/
theorem snippet_offsets_outside_text :
    SearchInFile (fun _ => none) ⟨bytes "f.txt", true, bytes "alpha"⟩ anchoredAlpha
      = .ok (some ⟨bytes "f.txt", [⟨⟨0, 0⟩, ⟨0, 5⟩, ⟨0, 5, []⟩⟩]⟩) ∧
    ¬ ((5 : Int) ≤ len ([] : GoString)) ∧
    slice [] 0 5 = none ∧
    slice (bytes "alpha") 0 5 = some (bytes "alpha") :=
  ⟨rfl, by decide, by decide, by decide⟩

/-- The match offsets also leave the snippet text when `TrimRight` removes bytes
of the match: on the content `"a\n\n\n\nb"` and the match range `[0, 2)` (the
text `"a\n"`), the window is `"a\n\n\n\n"`, the text is `"a"`, and the snippet
has `End = 2 > len(Text) = 1`. -/
theorem snippet_end_beyond_text :
    ParseLineStarts (bytes "a\n\n\n\nb") = some [0, 2, 3, 4, 5] ∧
    searchMatch (bytes "a\n\n\n\nb") [0, 2, 3, 4, 5] (0, 2)
      = some ⟨⟨0, 0⟩, ⟨1, 0⟩, ⟨0, 2, bytes "a"⟩⟩ ∧
    ¬ ((2 : Int) ≤ len (bytes "a")) ∧
    slice (bytes "a") 0 2 = none ∧
    slice (bytes "a\n\n\n\nb") 0 2 = some (bytes "a\n") := by
  decide

/-- Where the match offsets do lie inside the snippet text: for every content and
every match range `[s, e)` with `0 ≤ s ≤ e ≤ len(content)`, the loop body of
`SearchInFile` yields a snippet with `0 ≤ Start ≤ End`; and when `e` is the
start of the window, or some byte other than `'\n'` lies at a position `p` with
`e - 1 ≤ p < snippetEndCharPos`, also `End ≤ len(Text)` and `Text[Start:End]` is
the matched text `content[s:e]`. -/
theorem snippet_offsets_within_text (content : GoString) (s e : Int)
    (lineStarts : FileLineInfo) (startLocation endLocation : SourceLocation)
    (snippetStartCharPos snippetEndCharPos : Int)
    (hs : 0 ≤ s) (hse : s ≤ e) (he : e ≤ len content)
    (hidx : ParseLineStarts content = some lineStarts)
    (hstart : GetSourceLocation lineStarts s = some startLocation)
    (hend : GetSourceLocation lineStarts e = some endLocation)
    (hws : index lineStarts (snippetStartLine startLocation) = some snippetStartCharPos)
    (hwe : index lineStarts (snippetEndLine endLocation (len lineStarts))
      = some snippetEndCharPos)
    (hkeep : e = snippetStartCharPos ∨
      ∃ (p b : Nat), e - 1 ≤ (p : Int) ∧ (p : Int) < snippetEndCharPos ∧
        content.get? p = some b ∧ b ≠ newline) :
    ∃ (r : SearchFileResult) (matched : GoString),
      searchMatch content lineStarts (s, e) = some r ∧
      0 ≤ r.Snippet.Start ∧
      r.Snippet.Start ≤ r.Snippet.End ∧
      r.Snippet.End ≤ len r.Snippet.Text ∧
      slice content s e = some matched ∧
      slice r.Snippet.Text r.Snippet.Start r.Snippet.End = some matched := by
  rw [ParseLineStarts_eq] at hidx
  cases hidx
  obtain ⟨sl, el, hslel, hel, hlocs, hloce, hsle, _, _, _, _, hres⟩ :=
    searchMatch_eq content s e hs hse he
  have hpw := specLineStarts_pairwise content
  have hpos := specLineStarts_pos content
  have hb : min (el + 3) ((specLineStarts content).length - 1) < (specLineStarts content).length := by
    omega
  have ha : sl - 2 < (specLineStarts content).length := by omega
  rw [hlocs] at hstart
  rw [hloce] at hend
  cases hstart
  cases hend
  rw [snippetStartLine_natCast, index_getD ha] at hws
  rw [len, snippetEndLine_natCast _ _ _ hpos, index_getD hb] at hwe
  cases hws
  cases hwe
  have hws0 := (specLineStarts_getD_bounds content ha).1
  have hwslen := (specLineStarts_getD_bounds content ha).2
  have hwelen := (specLineStarts_getD_bounds content hb).2
  have hwss : (specLineStarts content).getD (sl - 2) 0 ≤ s :=
    le_trans (pairwise_getD_le hpw (by omega) (by omega)) hsle
  have hwswe : (specLineStarts content).getD (sl - 2) 0
      ≤ (specLineStarts content).getD (min (el + 3) ((specLineStarts content).length - 1)) 0 :=
    pairwise_getD_le hpw (by omega) hb
  simp only [len] at hwslen hwelen he
  generalize hwsdef : (specLineStarts content).getD (sl - 2) 0 = ws at *
  generalize hwedef :
    (specLineStarts content).getD (min (el + 3) ((specLineStarts content).length - 1)) 0 = we at *
  -- the end of the match lies inside the trimmed text
  have hEnd : e - ws ≤ len (TrimRight ((content.drop ws.toNat).take (we.toNat - ws.toNat))) := by
    rcases hkeep with h | ⟨p, b, hp1, hp2, hpb, hbn⟩
    · simp only [len]; omega
    · by_cases hews : e = ws
      · simp only [len]; omega
      · have hq : ((content.drop ws.toNat).take (we.toNat - ws.toNat)).get? (p - ws.toNat)
            = some b := by
          rw [List.get?_eq_getElem?, List.getElem?_take_of_lt (by omega), List.getElem?_drop]
          rw [List.get?_eq_getElem?] at hpb
          have : ws.toNat + (p - ws.toNat) = p := by omega
          rw [this]
          exact hpb
        have := TrimRight_length_gt _ _ _ hq hbn
        simp only [len]
        omega
  have hmatched := slice_eq_some hs hse (by simp only [len]; exact he)
  refine ⟨_, _, hres, ?_, ?_, hEnd, hmatched, ?_⟩
  · simp only; omega
  · simp only; omega
  · simp only
    rw [slice_of_isPrefix (TrimRight_isPrefix _) (by omega) (by omega) hEnd]
    have hEnd2 : e - ws ≤ len ((content.drop ws.toNat).take (we.toNat - ws.toNat)) := by
      have := (TrimRight_isPrefix ((content.drop ws.toNat).take (we.toNat - ws.toNat))).length_le
      simp only [len] at hEnd ⊢
      omega
    rw [slice_drop_take content ws.toNat _ (by omega) (by omega) (by omega) hEnd2]
    have e1 : ((ws.toNat : Int) + (s - ws)) = s := by omega
    have e2 : ((ws.toNat : Int) + (e - ws)) = e := by omega
    rw [e1, e2]
    exact hmatched

theorem snippet_offsets_within_text_example :
    ∃ (r : SearchFileResult) (matched : GoString),
      searchMatch (bytes "alpha\nbeta gamma\nalpha\n") [0, 6, 17, 23] (17, 22) = some r ∧
      0 ≤ r.Snippet.Start ∧
      r.Snippet.Start ≤ r.Snippet.End ∧
      r.Snippet.End ≤ len r.Snippet.Text ∧
      slice (bytes "alpha\nbeta gamma\nalpha\n") 17 22 = some matched ∧
      slice r.Snippet.Text r.Snippet.Start r.Snippet.End = some matched :=
  snippet_offsets_within_text (bytes "alpha\nbeta gamma\nalpha\n") 17 22 [0, 6, 17, 23]
    ⟨2, 0⟩ ⟨2, 5⟩ 0 23 (by decide) (by decide) (by decide) (by decide) (by decide) (by decide)
    (by decide) (by decide) (Or.inr ⟨21, 97, by decide, by decide, by decide, by decide⟩)

/-! ## SnippetBuilder: the text of the snippet -/

theorem specLineStarts_last (content : GoString)
    (h : content = [] ∨ content.getLast? = some newline) :
    (specLineStarts content).getD ((specLineStarts content).length - 1) 0 = len content := by
  have hpos := specLineStarts_pos content
  have hlast : (specLineStarts content).length - 1 < (specLineStarts content).length := by omega
  have hub := (specLineStarts_getD_bounds content hlast).2
  have hmem : len content ∈ specLineStarts content := by
    rcases h with rfl | h
    · simp [specLineStarts, len]
    · have hne : content ≠ [] := by
        rintro rfl
        simp at h
      have hlen : 0 < content.length := List.length_pos.mpr hne
      rw [List.getLast?_eq_getElem?] at h
      simp only [specLineStarts, List.mem_cons, List.mem_map]
      right
      refine ⟨content.length - 1, ?_, ?_⟩
      · simp only [newlinePositions, List.mem_filter, List.mem_range, beq_iff_eq,
          List.get?_eq_getElem?]
        exact ⟨by omega, h⟩
      · simp only [len]
        omega
  obtain ⟨k, hk, hkv⟩ := List.getElem_of_mem hmem
  have hle := pairwise_getD_le (specLineStarts_pairwise content) (show k ≤ _ by omega) hlast
  rw [List.getD_eq_getElem _ 0 hk, hkv] at hle
  omega

/-- C6 fails as stated: on the content `"a\n\n\n\n\nb"` and the match range
`[0, 1)` on line `0`, the window runs from line `0` to the end of line `2`, that
is `"a\n\n\n"`; with a single trailing `'\n'` removed it is `"a\n\n"`, but the
text `SearchInFile` builds is `"a"`: `TrimRight` removes every trailing `'\n'`. -/
theorem snippet_text_not_single_trim :
    ParseLineStarts (bytes "a\n\n\n\n\nb") = some [0, 2, 3, 4, 5, 6] ∧
    GetSourceLocation [0, 2, 3, 4, 5, 6] 0 = some ⟨0, 0⟩ ∧
    GetSourceLocation [0, 2, 3, 4, 5, 6] 1 = some ⟨0, 1⟩ ∧
    searchMatch (bytes "a\n\n\n\n\nb") [0, 2, 3, 4, 5, 6] (0, 1)
      = some ⟨⟨0, 0⟩, ⟨0, 1⟩, ⟨0, 1, bytes "a"⟩⟩ ∧
    specSnippetText (bytes "a\n\n\n\n\nb") [0, 2, 3, 4, 5, 6] 0 0 = some (bytes "a\n\n") ∧
    bytes "a" ≠ bytes "a\n\n" := by
  decide

/-- C6, amended: for every content and every match range `[s, e)` with
`0 ≤ s ≤ e ≤ len(content)` whose ends lie on lines `startLine` and `endLine`,
when the window stops before the last line (`endLine + 2 < lineCount - 1`) or
the last line is empty (the content is empty or ends in `'\n'`), the snippet
text built by `SearchInFile` is the substring of the content from the start of
line `max (startLine - 2) 0` to the end of line `min (endLine + 2) (lineCount - 1)`
with every trailing `'\n'` removed. -/
theorem snippet_text_window (content : GoString) (s e : Int)
    (lineStarts : FileLineInfo) (startLocation endLocation : SourceLocation)
    (hs : 0 ≤ s) (hse : s ≤ e) (he : e ≤ len content)
    (hidx : ParseLineStarts content = some lineStarts)
    (hstart : GetSourceLocation lineStarts s = some startLocation)
    (hend : GetSourceLocation lineStarts e = some endLocation)
    (hlast : endLocation.Line + 2 < len lineStarts - 1 ∨ content = [] ∨
      content.getLast? = some newline) :
    ∃ (r : SearchFileResult) (window : GoString),
      searchMatch content lineStarts (s, e) = some r ∧
      specSnippetWindow content lineStarts startLocation.Line endLocation.Line = some window ∧
      r.Snippet.Text = TrimRight window := by
  rw [ParseLineStarts_eq] at hidx
  cases hidx
  obtain ⟨sl, el, hslel, hel, hlocs, hloce, _, _, _, _, hslice, hres⟩ :=
    searchMatch_eq content s e hs hse he
  have hpos := specLineStarts_pos content
  have ha : sl - 2 < (specLineStarts content).length := by omega
  rw [hlocs] at hstart
  rw [hloce] at hend
  cases hstart
  cases hend
  refine ⟨_, _, hres, ?_, rfl⟩
  have hstartLine : maxInt ((sl : Int) - 2) 0 = ((sl - 2 : Nat) : Int) := by
    simp only [maxInt]
    split <;> omega
  have hwe : specLineEnd content (specLineStarts content)
        (minInt ((el : Int) + 2) (len (specLineStarts content) - 1))
      = some ((specLineStarts content).getD
          (min (el + 3) ((specLineStarts content).length - 1)) 0) := by
    by_cases hin : el + 3 ≤ (specLineStarts content).length - 1
    · have h1 : minInt ((el : Int) + 2) (len (specLineStarts content) - 1) = (el : Int) + 2 := by
        simp only [minInt, len]
        split <;> omega
      have h2 : min (el + 3) ((specLineStarts content).length - 1) = el + 3 := by omega
      have h3 : (el : Int) + 2 + 1 = ((el + 3 : Nat) : Int) := by omega
      rw [h1, h2, specLineEnd, if_pos (by simp only [len]; omega), h3]
      exact index_getD (by omega)
    · have hempty : content = [] ∨ content.getLast? = some newline := by
        rcases hlast with h | h
        · simp only [len] at h
          omega
        · exact h
      have h1 : minInt ((el : Int) + 2) (len (specLineStarts content) - 1)
          = len (specLineStarts content) - 1 := by
        simp only [minInt, len]
        split <;> omega
      have h2 : min (el + 3) ((specLineStarts content).length - 1)
          = (specLineStarts content).length - 1 := by omega
      rw [h1, h2, specLineEnd, if_neg (by omega), specLineStarts_last content hempty]
  simp only [specSnippetWindow, hstartLine, index_getD ha, hwe, Option.bind_eq_bind,
    Option.some_bind]
  exact hslice

theorem snippet_text_window_witness :
    ∃ (r : SearchFileResult) (window : GoString),
      searchMatch (bytes "alpha\nbeta gamma\nalpha\n") [0, 6, 17, 23] (17, 22) = some r ∧
      specSnippetWindow (bytes "alpha\nbeta gamma\nalpha\n") [0, 6, 17, 23] 2 2 = some window ∧
      r.Snippet.Text = TrimRight window :=
  snippet_text_window (bytes "alpha\nbeta gamma\nalpha\n") 17 22 [0, 6, 17, 23]
    ⟨2, 0⟩ ⟨2, 5⟩ (by decide) (by decide) (by decide) (by decide) (by decide) (by decide)
    (Or.inr (Or.inr (by decide)))

/-! ## MatchExtractor: the per-file cap -/

/-- C4: for every cached file and every query, `SearchInFile` returns `nil` when the capped scan
`FindAllStringIndex(contents, MAX_RESULTS_PER_FILE)` finds nothing, and otherwise
a result list that holds exactly one `SearchFileResult` per range of the capped
scan, in the same order; its length is the number of matches when that is at
most `10`, and `10` when the pattern matches more often. -/
theorem SearchInFile_results_capped (readFile : GoString → Option GoString)
    (fileData : FileData) (queryRegexp : Regexp) (hc : fileData.isCached = true) :
    ∃ lineStarts : FileLineInfo,
      ParseLineStarts fileData.cachedContents = some lineStarts ∧
      ((FindAllStringIndex queryRegexp fileData.cachedContents MAX_RESULTS_PER_FILE = none ∧
          SearchInFile readFile fileData queryRegexp = .ok none) ∨
        ∃ (allMatches : List (Int × Int)) (results : List SearchFileResult),
          FindAllStringIndex queryRegexp fileData.cachedContents MAX_RESULTS_PER_FILE
            = some allMatches ∧
          SearchInFile readFile fileData queryRegexp
            = .ok (some ⟨fileData.FilePath, results⟩) ∧
          len results ≤ MAX_RESULTS_PER_FILE ∧
          results.length = min 10 (queryRegexp.allMatches fileData.cachedContents).length ∧
          List.Forall₂
            (fun m r => searchMatch fileData.cachedContents lineStarts m = some r)
            allMatches results) := by
  refine ⟨specLineStarts fileData.cachedContents, ParseLineStarts_eq _, ?_⟩
  rcases SearchInFile_eq readFile fileData queryRegexp hc with ⟨hnil, hres⟩ | ⟨hne, rs, hres, hall⟩
  · left
    exact ⟨by simp [FindAllStringIndex_max, hnil], hres⟩
  · right
    have hne' : ¬ (queryRegexp.allMatches fileData.cachedContents).take 10 = [] := by
      rw [take_ten_eq_nil]; exact hne
    have hlen : rs.length = min 10 (queryRegexp.allMatches fileData.cachedContents).length := by
      rw [← hall.length_eq, List.length_take]
    refine ⟨_, rs, by rw [FindAllStringIndex_max, if_neg hne'], hres, ?_, hlen, hall⟩
    simp only [len, MAX_RESULTS_PER_FILE]
    omega

theorem SearchInFile_results_capped_witness :
    ∃ lineStarts : FileLineInfo,
      ParseLineStarts (bytes "aaaaaaaaaaaa") = some lineStarts ∧
      ((FindAllStringIndex everyByte
            (bytes "aaaaaaaaaaaa") MAX_RESULTS_PER_FILE = none ∧
          SearchInFile (fun _ => none) ⟨bytes "f.go", true, bytes "aaaaaaaaaaaa"⟩
            everyByte
            = .ok none) ∨
        ∃ (allMatches : List (Int × Int)) (results : List SearchFileResult),
          FindAllStringIndex everyByte
            (bytes "aaaaaaaaaaaa") MAX_RESULTS_PER_FILE = some allMatches ∧
          SearchInFile (fun _ => none) ⟨bytes "f.go", true, bytes "aaaaaaaaaaaa"⟩
            everyByte
            = .ok (some ⟨bytes "f.go", results⟩) ∧
          len results ≤ MAX_RESULTS_PER_FILE ∧
          results.length = min 10 (everyByte.allMatches (bytes "aaaaaaaaaaaa")).length ∧
          List.Forall₂
            (fun m r => searchMatch (bytes "aaaaaaaaaaaa") lineStarts m = some r)
            allMatches results) :=
  SearchInFile_results_capped (fun _ => none) ⟨bytes "f.go", true, bytes "aaaaaaaaaaaa"⟩
    everyByte rfl

/-! ## Files without a match -/

/-- C8: for every set of cached files and every compiled query, `SearchInFile` returns `nil` (and no error) on a file
exactly when the query has no match in its content, every result it returns has
a non-empty match list, a worker publishes that result only when it is not
`nil`, and every entry of the mapping returned by `SearchInDir` is the result
list of a file with at least one match: a file with zero matches produces no
entry. -/
theorem no_match_no_entry (compile : GoString → Option Regexp)
    (readFile : GoString → Option GoString) (arrival : List Nat)
    (fileDataSet : List FileData) (pathPrefix query : GoString) (queryRegexp : Regexp)
    (hcompile : compile query = some queryRegexp)
    (hcached : ∀ fd ∈ fileDataSet, fd.isCached = true) :
    (∀ fd ∈ fileDataSet,
      (SearchInFile readFile fd queryRegexp = .ok none ↔
        queryRegexp.allMatches fd.cachedContents = []) ∧
      (∀ r, SearchInFile readFile fd queryRegexp = .ok (some r) → r.Results ≠ []) ∧
      SearchWorker readFile queryRegexp fd = SearchInFile readFile fd queryRegexp) ∧
    ∃ searchDirResults,
      SearchInDir compile readFile arrival fileDataSet pathPrefix query = .ok searchDirResults ∧
      ∀ k v, mapGet searchDirResults k = some v →
        ∃ fd ∈ fileDataSet,
          queryRegexp.allMatches fd.cachedContents ≠ [] ∧
          k = TrimPrefix fd.FilePath pathPrefix ∧
          SearchInFile readFile fd queryRegexp = .ok (some ⟨fd.FilePath, v⟩) := by
  constructor
  · intro fd hfd
    have hspec := fileResult_spec readFile queryRegexp fd (hcached fd hfd)
    rcases SearchInFile_eq readFile fd queryRegexp (hcached fd hfd) with
      ⟨hnil, hres⟩ | ⟨hne, rs, hres, hall⟩
    · refine ⟨⟨fun _ => hnil, fun _ => hres⟩, ?_, by rw [hspec.2.1, hspec.1]⟩
      intro r hr
      rw [hres] at hr
      cases hr
    · refine ⟨⟨?_, fun h => absurd h hne⟩, ?_, by rw [hspec.2.1, hspec.1]⟩
      · intro h
        rw [hres] at h
        cases h
      · intro r hr
        obtain ⟨rs', hne', hrs'⟩ := hspec.2.2.2 (by simpa [hasMatch] using hne)
        rw [hspec.1, hrs'] at hr
        cases hr
        exact hne'
  · have hrun : SearchInDir compile readFile arrival fileDataSet pathPrefix query
        = .ok (collectResults pathPrefix
            (arrival.filterMap
              (fun i => (fileDataSet.get? i).bind (fileResult readFile queryRegexp))) []) := by
      simp only [SearchInDir, hcompile,
        publishedResults_eq readFile queryRegexp fileDataSet hcached arrival]
    refine ⟨_, hrun, ?_⟩
    intro k v hkv
    rcases collectResults_mapGet pathPrefix _ [] k v hkv with h | ⟨r, hr, hk, hv⟩
    · simp [mapGet] at h
    · rw [List.mem_filterMap] at hr
      obtain ⟨i, _, hi⟩ := hr
      cases hget : fileDataSet.get? i with
      | none =>
        rw [hget] at hi
        cases hi
      | some fd =>
        rw [hget, Option.some_bind] at hi
        have hfd : fd ∈ fileDataSet := List.get?_mem hget
        have hspec := fileResult_spec readFile queryRegexp fd (hcached fd hfd)
        cases hm : hasMatch queryRegexp fd with
        | false =>
          rw [hspec.2.2.1 hm] at hi
          cases hi
        | true =>
          obtain ⟨rs, _, hrs⟩ := hspec.2.2.2 hm
          rw [hrs] at hi
          cases hi
          refine ⟨fd, hfd, ?_, hk.symm, ?_⟩
          · simpa [hasMatch] using hm
          · rw [hspec.1, hrs]
            simp only at hv
            rw [hv]

theorem no_match_no_entry_witness :
    (∀ fd ∈ [(⟨bytes "a.go", true, bytes ""⟩ : FileData), ⟨bytes "b.go", true, bytes "xy"⟩],
      (SearchInFile (fun _ => none) fd everyByte = .ok none ↔
        everyByte.allMatches fd.cachedContents = []) ∧
      (∀ r, SearchInFile (fun _ => none) fd everyByte = .ok (some r) → r.Results ≠ []) ∧
      SearchWorker (fun _ => none) everyByte fd = SearchInFile (fun _ => none) fd everyByte) ∧
    ∃ searchDirResults,
      SearchInDir (fun _ => some everyByte) (fun _ => none) [1, 0]
        [⟨bytes "a.go", true, bytes ""⟩, ⟨bytes "b.go", true, bytes "xy"⟩]
        (bytes "") (bytes ".") = .ok searchDirResults ∧
      ∀ k v, mapGet searchDirResults k = some v →
        ∃ fd ∈ [(⟨bytes "a.go", true, bytes ""⟩ : FileData), ⟨bytes "b.go", true, bytes "xy"⟩],
          everyByte.allMatches fd.cachedContents ≠ [] ∧
          k = TrimPrefix fd.FilePath (bytes "") ∧
          SearchInFile (fun _ => none) fd everyByte = .ok (some ⟨fd.FilePath, v⟩) :=
  no_match_no_entry (fun _ => some everyByte) (fun _ => none) [1, 0]
    [⟨bytes "a.go", true, bytes ""⟩, ⟨bytes "b.go", true, bytes "xy"⟩]
    (bytes "") (bytes ".") everyByte rfl (by decide)

/-! ## SearchCoordinator: one entry per file with a match -/

/-- C5 fails on the code: the cached files `.x.go` and `x.go` have distinct
paths and the query has a match in both, but with the root prefix `.` the
collector stores both results under the key `x.go`, because
`strings.TrimPrefix(".x.go", ".")` is `x.go`. In either order of arrival of the
two results the mapping has one entry for two files with a match, and the match
list of the file whose result arrived first is lost. -/
theorem SearchInDir_key_collision :
    (dotFiles.map (fun fd => fd.FilePath)).Nodup ∧
    (dotFiles.filter (hasMatch everyByte)).length = 2 ∧
    TrimPrefix (bytes ".x.go") (bytes ".") = TrimPrefix (bytes "x.go") (bytes ".") ∧
    (∃ (searchDirResults : SearchDirResults) (own : List SearchFileResult),
      SearchInDir (fun _ => some everyByte) (fun _ => none) [0, 1] dotFiles
        (bytes ".") (bytes ".") = .ok searchDirResults ∧
      searchDirResults.length = 1 ∧
      SearchInFile (fun _ => none) ⟨bytes ".x.go", true, bytes "x"⟩ everyByte
        = .ok (some ⟨bytes ".x.go", own⟩) ∧
      mapGet searchDirResults (TrimPrefix (bytes ".x.go") (bytes ".")) ≠ some own) ∧
    (∃ (searchDirResults : SearchDirResults) (own : List SearchFileResult),
      SearchInDir (fun _ => some everyByte) (fun _ => none) [1, 0] dotFiles
        (bytes ".") (bytes ".") = .ok searchDirResults ∧
      searchDirResults.length = 1 ∧
      SearchInFile (fun _ => none) ⟨bytes "x.go", true, bytes "xx"⟩ everyByte
        = .ok (some ⟨bytes "x.go", own⟩) ∧
      mapGet searchDirResults (TrimPrefix (bytes "x.go") (bytes ".")) ≠ some own) := by
  refine ⟨by decide, by decide, by decide, ⟨_, _, rfl, by decide, rfl, by decide⟩,
    ⟨_, _, rfl, by decide, rfl, by decide⟩⟩

/-- The walk of the root `.` over a directory that holds the plain files `.x.go`
and `x.go` returns the paths `.x.go` and `x.go`, the paths of `dotFiles`:
`path.Join` does not keep a leading `./`. -/
theorem dotFiles_from_walk :
    GetFilepathsInDir joinClean (some (fun p => (bytes ".go").isSuffixOf p))
        (some (fun _ => false)) (bytes ".") true
        [.file (bytes ".x.go"), .file (bytes "x.go")]
      = .ok [⟨bytes ".x.go", false, []⟩, ⟨bytes "x.go", false, []⟩] ∧
    dotFiles.map (fun fd => fd.FilePath) = [bytes ".x.go", bytes "x.go"] :=
  ⟨rfl, by decide⟩

/-- What the collector builds when it does receive the result of every file
exactly once (the hypothesis `harrival`, a property of the worker pool that is
assumed here, not derived) and the paths of the files with at least one match
stay pairwise distinct after `strings.TrimPrefix(path, pathPrefix)`: a mapping
with one key per entry that has as many entries as there are files with at least
one match, where the entry stored under `TrimPrefix(path, pathPrefix)` is that
file's own match list. -/
theorem SearchInDir_of_full_arrival (compile : GoString → Option Regexp)
    (readFile : GoString → Option GoString) (arrival : List Nat)
    (fileDataSet : List FileData) (pathPrefix query : GoString) (queryRegexp : Regexp)
    (hcompile : compile query = some queryRegexp)
    (hcached : ∀ fd ∈ fileDataSet, fd.isCached = true)
    (harrival : arrival.Perm (List.range fileDataSet.length))
    (hkeys : ((fileDataSet.filter (hasMatch queryRegexp)).map
      (fun fd => TrimPrefix fd.FilePath pathPrefix)).Nodup) :
    ∃ searchDirResults,
      SearchInDir compile readFile arrival fileDataSet pathPrefix query = .ok searchDirResults ∧
      searchDirResults.length = (fileDataSet.filter (hasMatch queryRegexp)).length ∧
      (searchDirResults.map Prod.fst).Nodup ∧
      ∀ fd ∈ fileDataSet, hasMatch queryRegexp fd = true →
        ∃ results,
          SearchInFile readFile fd queryRegexp = .ok (some ⟨fd.FilePath, results⟩) ∧
          mapGet searchDirResults (TrimPrefix fd.FilePath pathPrefix) = some results := by
  have hrun : SearchInDir compile readFile arrival fileDataSet pathPrefix query
      = .ok (collectResults pathPrefix
          (arrival.filterMap
            (fun i => (fileDataSet.get? i).bind (fileResult readFile queryRegexp))) []) := by
    simp only [SearchInDir, hcompile,
      publishedResults_eq readFile queryRegexp fileDataSet hcached arrival]
  have hperm := published_perm readFile queryRegexp fileDataSet arrival harrival
  have hpaths := filterMap_fileResult_paths readFile queryRegexp fileDataSet hcached
  have hbasekeys : (fileDataSet.filterMap (fileResult readFile queryRegexp)).map
        (fun r => TrimPrefix r.FilePath pathPrefix)
      = (fileDataSet.filter (hasMatch queryRegexp)).map
        (fun fd => TrimPrefix fd.FilePath pathPrefix) := by
    have := congrArg (List.map (fun p => TrimPrefix p pathPrefix)) hpaths
    simpa [List.map_map, Function.comp_def] using this
  have hnd : ((arrival.filterMap
      (fun i => (fileDataSet.get? i).bind (fileResult readFile queryRegexp))).map
        (fun r => TrimPrefix r.FilePath pathPrefix)).Nodup := by
    rw [(hperm.map _).nodup_iff, hbasekeys]
    exact hkeys
  obtain ⟨h1, h2, h3, _⟩ := collectResults_distinct pathPrefix _ [] hnd (by simp) (by simp)
  refine ⟨_, hrun, ?_, h2, ?_⟩
  · rw [h1, List.length_nil, Nat.zero_add, hperm.length_eq]
    have := congrArg List.length hpaths
    simpa using this
  · intro fd hfd hm
    have hspec := fileResult_spec readFile queryRegexp fd (hcached fd hfd)
    obtain ⟨rs, _, hrs⟩ := hspec.2.2.2 hm
    refine ⟨rs, by rw [hspec.1, hrs], ?_⟩
    have hmem : (⟨fd.FilePath, rs⟩ : SearchResultsForFile)
        ∈ fileDataSet.filterMap (fileResult readFile queryRegexp) :=
      List.mem_filterMap.mpr ⟨fd, hfd, hrs⟩
    exact h3 _ (hperm.mem_iff.mpr hmem)

theorem SearchInDir_of_full_arrival_example :
    ∃ searchDirResults,
      SearchInDir (fun _ => some everyByte) (fun _ => none) [1, 0] srcFiles
        (bytes "src/") (bytes ".") = .ok searchDirResults ∧
      searchDirResults.length = (srcFiles.filter (hasMatch everyByte)).length ∧
      (searchDirResults.map Prod.fst).Nodup ∧
      ∀ fd ∈ srcFiles, hasMatch everyByte fd = true →
        ∃ results,
          SearchInFile (fun _ => none) fd everyByte = .ok (some ⟨fd.FilePath, results⟩) ∧
          mapGet searchDirResults (TrimPrefix fd.FilePath (bytes "src/")) = some results :=
  SearchInDir_of_full_arrival (fun _ => some everyByte) (fun _ => none) [1, 0] srcFiles
    (bytes "src/") (bytes ".") everyByte rfl (by decide) (by decide) (by decide)

/-! ## FileCatalog: what the walk returns -/

/-- C9: for every directory tree, every root path, every non-nil include pattern
and every exclude pattern, `GetFilepathsInDir(root, include, exclude)` returns
exactly, in listing order, the plain files under the root whose full path
matches the include pattern and for which no directory from the root (included)
down to the file has a path matching the exclude pattern. The exclude pattern is
not applied to the path of the file itself, and a symbolic link is neither
returned nor descended into. The only other outcome is the error of
`ioutil.ReadDir`, when a directory that the walk reads cannot be read. -/
theorem GetFilepathsInDir_spec (join : GoString → GoString → GoString)
    (includeMatch excludeMatch : GoString → Bool) (root : GoString) (readable : Bool)
    (entries : List Entry) :
    GetFilepathsInDir join (some includeMatch) (some excludeMatch) root readable entries
      = if (excludeMatch root ||
            (readable && readableEntries join excludeMatch root entries)) = true
        then .ok (specCatalog join includeMatch excludeMatch root entries)
        else .error .error := by
  simp only [GetFilepathsInDir, dirBody, specCatalog]
  cases hex : excludeMatch root with
  | true =>
    rw [filter_specKeep_of_excluded includeMatch excludeMatch root hex _
      (fun f hf => specFilesOfEntries_ancestors join root [root] root
        (List.mem_singleton_self _) entries f hf)]
    simp
  | false =>
    cases hread : readable with
    | false => simp
    | true =>
      cases hsub : readableEntries join excludeMatch root entries with
      | false =>
        rw [scanEntries_unreadable join includeMatch excludeMatch root entries hsub]
        simp
      | true =>
        obtain ⟨lists, hl, hflat⟩ := scanEntries_spec join includeMatch excludeMatch root [root]
          (by simp [hex]) entries hsub
        simp [hl, hflat]

theorem GetFilepathsInDir_spec_witness :
    GetFilepathsInDir joinSlash (some (fun p => (bytes ".go").isSuffixOf p))
        (some (fun p => p == bytes "r/node_modules" || p == bytes "r/src/d.go")) (bytes "r") true sampleTree
      = .ok [⟨bytes "r/a.go", false, []⟩, ⟨bytes "r/src/d.go", false, []⟩] :=
  (GetFilepathsInDir_spec joinSlash (fun p => (bytes ".go").isSuffixOf p)
    (fun p => p == bytes "r/node_modules" || p == bytes "r/src/d.go") (bytes "r") true sampleTree).trans rfl

end Files
